import Mathlib

/-!
Verification development for the AltoCRM backend.

The repository is a set of near-duplicate Express + Postgres CRM servers.
The definitions below are a shallow embedding of the data model and of the
operations relevant to the frozen claims: tables become lists of records,
SQL statements become pure functions on those lists, thrown exceptions
become Except values, and the wall clock (now()) becomes an explicit Nat
argument wherever an inserted row stores a timestamp.
-/

namespace AltoCRM

/-- JS falsy coercion used as `expr || null`: the empty string is falsy and
becomes null, every other string is kept. -/
def jsOrNull (s : String) : Option String :=
  if s = "" then none else some s

/-- Splits a character list at every space, keeping empty pieces, so that the
result on `s.data` matches the JS expression `s.split(" ")` piece for piece. -/
def splitChars : List Char → List (List Char)
  | [] => [[]]
  | c :: cs =>
    match splitChars cs with
    | [] => [[]]
    | t :: ts => if c = ' ' then [] :: t :: ts else (c :: t) :: ts

/-- The space-separated pieces of a string, exactly as the JS expression
`s.split(" ")` produces them (empty pieces are kept, and the empty string
yields one empty piece). -/
def tokens (s : String) : List String :=
  (splitChars s.data).map String.mk

/-- Joins strings with single spaces, as the JS expression `xs.join(" ")`. -/
def joinSpace : List String → String
  | [] => ""
  | [t] => t
  | t :: ts => t ++ " " ++ joinSpace ts

/-- Result of the aiSuggestLead stub: three suggested values and their three
confidence constants (flattened from the two nested JS objects). -/
structure AISuggest where
  first_name : Option String
  last_name : Option String
  company_short : Option String
  conf_first_name : Rat
  conf_last_name : Rat
  conf_company_short : Rat
deriving DecidableEq

/-- Embedding of aiSuggestLead (src/unnamed/part_001 lines 51-67, identical in
src/unnamed/part_004 and the third variant inside src/server.js).  The JS code is
`first = lead.full_name?.split(" ")[0] || null`,
`last = lead.full_name?.split(" ").slice(1).join(" ") || null`, and
`company_short = lead.company ? lead.company.split(" ")[0] : null`;
absent and null inputs behave alike under the optional chain, so both are the
`none` case here. -/
def aiSuggestLead (full_name company : Option String) : AISuggest where
  first_name :=
    match full_name with
    | none => none
    | some s => jsOrNull ((tokens s).headD "")
  last_name :=
    match full_name with
    | none => none
    | some s => jsOrNull (joinSpace (tokens s).tail)
  company_short :=
    match company with
    | none => none
    | some c => if c = "" then none else some ((tokens c).headD "")
  conf_first_name := 9/10
  conf_last_name := 9/10
  conf_company_short := 7/10

/-- The claim C6 reading of aiSuggestLead, written from the claim text alone:
first_name is the substring of full_name before the first space and is null
exactly when full_name is absent; last_name is the text after the first space
with the remaining tokens joined by single spaces, null when full_name is
absent or there is no text after the first space; company_short is the first
space-separated token of company, null exactly when company is absent. -/
def aiSuggestLeadClaimed (full_name company : Option String) : AISuggest where
  first_name := full_name.map (fun s => (tokens s).headD "")
  last_name :=
    match full_name with
    | none => none
    | some s =>
      let rest := joinSpace (tokens s).tail
      if rest = "" then none else some rest
  company_short := company.map (fun c => (tokens c).headD "")
  conf_first_name := 9/10
  conf_last_name := 9/10
  conf_company_short := 7/10

/-- The amended claim C6 reading: as claimed, except that first_name is null
also when the substring before the first space is empty, and company_short is
null also when company is the empty string. -/
def aiSuggestLeadAmended (full_name company : Option String) : AISuggest where
  first_name :=
    match full_name with
    | none => none
    | some s =>
      let t := (tokens s).headD ""
      if t = "" then none else some t
  last_name :=
    match full_name with
    | none => none
    | some s =>
      let rest := joinSpace (tokens s).tail
      if rest = "" then none else some rest
  company_short :=
    match company with
    | none => none
    | some c => if c = "" then none else some ((tokens c).headD "")
  conf_first_name := 9/10
  conf_last_name := 9/10
  conf_company_short := 7/10

/-- A column-value assignment list.  A leads row stores every column of the
table as a (column name, SQL value) pair; an SQL NULL is `none`. -/
abbrev Cells := List (String × Option String)

/-- A row of the leads table: the primary key plus the remaining columns. -/
structure LeadRow where
  id : Nat
  cells : Cells
deriving DecidableEq

/-- A row of lead_field_locks (src/unnamed/part_001 upsertFieldLock and the
lock upsert inside processAIEnrichJob of src/unnamed/part_004). -/
structure FieldLock where
  lead_id : Nat
  field_name : String
  ai_value : Option String
  confidence : Option Rat
  locked : Bool
  locked_by : String
deriving DecidableEq

/-- A row of lead_field_meta (src/unnamed/part_004 upsertFieldMeta). -/
structure FieldMeta where
  lead_id : Nat
  field_key : String
  source : String
  confidence : Option Rat
  locked : Bool
deriving DecidableEq

/-- A row of lead_audit_logs (auditChange in src/unnamed/part_004; the
actor_id column of the part_001 variant is always null and is omitted). -/
structure AuditRow where
  id : Nat
  lead_id : Nat
  action_type : String
  field_name : String
  old_value : Option String
  new_value : Option String
  actor_type : String
  created_at : Nat
deriving DecidableEq

/-- Payload of a background job: ai_enrich jobs carry a lead id, import_row
jobs carry a data object of column values. -/
inductive JobPayload where
  | leadRef (lead_id : Nat)
  | importRow (data : Cells)
deriving DecidableEq

/-- A row of background_jobs (src/unnamed/part_001: the claim update also
increments attempts, and completion stores completed_at). -/
structure JobRow where
  id : Nat
  job_type : String
  payload : JobPayload
  status : String
  attempts : Nat
  created_at : Nat
  completed_at : Option Nat
  last_error : Option String
deriving DecidableEq

/-- The database state: the five tables the claims touch. -/
structure DB where
  leads : List LeadRow
  lead_field_locks : List FieldLock
  lead_field_meta : List FieldMeta
  lead_audit_logs : List AuditRow
  background_jobs : List JobRow
deriving DecidableEq

/-- Looks up a column in an assignment list (first match, like a SQL row
read of one column). -/
def lookupCell : Cells → String → Option (Option String)
  | [], _ => none
  | c :: cs, f => if c.1 = f then some c.2 else lookupCell cs f

/-- The value of a column of a leads row: `none` when the column does not
exist (the JS property read gives undefined), `some none` for SQL NULL. -/
def getCell (r : LeadRow) (f : String) : Option (Option String) :=
  lookupCell r.cells f

/-- Overwrites an existing column of an assignment list; a column that is not
present is left untouched (the SQL UPDATE on it would instead throw, which the
callers check separately). -/
def setCells (cs : Cells) (f : String) (v : Option String) : Cells :=
  cs.map fun c => if c.1 = f then (c.1, v) else c

/-- Overwrites an existing column of a leads row. -/
def setCell (r : LeadRow) (f : String) (v : Option String) : LeadRow :=
  { r with cells := setCells r.cells f v }

/-- The JS String() conversion of a nullable value: String(null) is "null". -/
def jsStringOfValue : Option String → String
  | none => "null"
  | some s => s

/-- The JS String() conversion of a property read on a row object:
String(undefined) is "undefined", otherwise as jsStringOfValue. -/
def jsStringOfCell : Option (Option String) → String
  | none => "undefined"
  | some v => jsStringOfValue v

/-- Collapses a property read to a nullable value: a missing column and a NULL
behave alike under the JS optional chain in aiSuggestLead. -/
def joinCell : Option (Option String) → Option String
  | none => none
  | some v => v

/-- SELECT * FROM leads WHERE id = x (first matching row). -/
def findLead : List LeadRow → Nat → Option LeadRow
  | [], _ => none
  | l :: ls, i => if l.id = i then some l else findLead ls i

/-- SELECT locked FROM lead_field_locks WHERE lead_id AND field_name (first
matching row). -/
def findLock : List FieldLock → Nat → String → Option FieldLock
  | [], _, _ => none
  | r :: rs, lid, f =>
    if r.lead_id = lid ∧ r.field_name = f then some r else findLock rs lid f

/-- Embedding of isFieldLocked (src/unnamed/part_004 lines 100-106): true
exactly when a lead_field_locks row exists for the pair and its locked column
is true. -/
def isFieldLockedIn (locks : List FieldLock) (lid : Nat) (f : String) : Bool :=
  match findLock locks lid f with
  | none => false
  | some r => r.locked

/-- INSERT ... ON CONFLICT (lead_id, field_key) DO UPDATE for lead_field_meta
(src/unnamed/part_004 upsertFieldMeta): the conflicting row keeps its identity
and takes the new source, confidence and locked values. -/
def upsertMetaList : List FieldMeta → FieldMeta → List FieldMeta
  | [], m => [m]
  | r :: rs, m =>
    if r.lead_id = m.lead_id ∧ r.field_key = m.field_key then
      { r with source := m.source, confidence := m.confidence, locked := m.locked } :: rs
    else r :: upsertMetaList rs m

/-- INSERT ... ON CONFLICT (lead_id, field_name) DO UPDATE for
lead_field_locks (src/unnamed/part_001 upsertFieldLock; every caller leaves
the locked parameter at its default true, and locked_by is always the string
ai). -/
def upsertFieldLock (locks : List FieldLock) (lid : Nat) (f : String)
    (v : Option String) (conf : Option Rat) : List FieldLock :=
  match locks with
  | [] => [⟨lid, f, v, conf, true, "ai"⟩]
  | r :: rs =>
    if r.lead_id = lid ∧ r.field_name = f then
      { r with ai_value := v, confidence := conf, locked := true, locked_by := "ai" } :: rs
    else r :: upsertFieldLock rs lid f v conf

/-- The two field lists that the part_004 PATCH handler skips outright. -/
def DERIVED_FIELDS : List String := ["local_time", "timezone"]

/-- Integration-owned fields skipped by the part_004 PATCH handler. -/
def INTEGRATION_FIELDS : List String :=
  ["email1_status", "email2_status", "email_sequence",
   "last_email", "last_phone_date", "call_count"]

/-- Outcome of the PATCH field loop: whether every processed UPDATE succeeded,
the column updates performed inside the transaction, and the grown audit and
meta tables (those two are written through the pool, outside the transaction,
so they survive a rollback). -/
structure PatchOutcome where
  ok : Bool
  updates : Cells
  audits : List AuditRow
  metas : List FieldMeta
deriving DecidableEq

/-- Embedding of the field loop of PATCH /api/leads/:id
(src/unnamed/part_004 lines 341-366).  For each body entry the handler skips
derived fields, integration fields, locked fields, and fields whose value is
unchanged under JS String comparison against the row snapshot `old`; it then
runs UPDATE leads SET field = value (which throws when the column does not
exist, aborting the loop), appends an audit row via auditChange, and upserts
lead_field_meta.  `aud` and `met` are the live tables, `n` the next audit
serial, `t` the clock. -/
def runPatch (locks : List FieldLock) (leadId : Nat) (old : LeadRow) (t : Nat) :
    Cells → Cells → List AuditRow → List FieldMeta → Nat → PatchOutcome
  | [], ups, aud, met, _ => ⟨true, ups, aud, met⟩
  | (f, v) :: rest, ups, aud, met, n =>
    if f ∈ DERIVED_FIELDS then runPatch locks leadId old t rest ups aud met n
    else if f ∈ INTEGRATION_FIELDS then runPatch locks leadId old t rest ups aud met n
    else if isFieldLockedIn locks leadId f then runPatch locks leadId old t rest ups aud met n
    else if jsStringOfCell (getCell old f) = jsStringOfValue v then
      runPatch locks leadId old t rest ups aud met n
    else
      match getCell old f with
      | none => ⟨false, ups, aud, met⟩
      | some w =>
        runPatch locks leadId old t rest
          (ups ++ [(f, v)])
          (aud ++ [⟨n, leadId, "update", f, w, v, "human", t⟩])
          (upsertMetaList met ⟨leadId, f, "manual", none, false⟩)
          (n + 1)

/-- Replays the buffered column updates of a successful PATCH transaction on
one leads row. -/
def applyUpdates (l : LeadRow) (ups : Cells) : LeadRow :=
  ups.foldl (fun r c => setCell r c.1 c.2) l

/-- Whether one body entry mutates the lead under the part_004 PATCH rules:
not derived, not integration-owned, not locked, and its new value differs from
the stored value under JS String comparison. -/
def mutatesB (locks : List FieldLock) (lid : Nat) (old : LeadRow)
    (c : String × Option String) : Bool :=
  decide (c.1 ∉ DERIVED_FIELDS) && decide (c.1 ∉ INTEGRATION_FIELDS) &&
  !(isFieldLockedIn locks lid c.1) &&
  decide (jsStringOfCell (getCell old c.1) ≠ jsStringOfValue c.2)

/-- The content of an audit row apart from its serial id and timestamp. -/
def auditContent (a : AuditRow) :
    Nat × String × String × Option String × Option String × String :=
  (a.lead_id, a.action_type, a.field_name, a.old_value, a.new_value, a.actor_type)

/-- HTTP outcome of a lead mutation endpoint together with the database it
leaves behind. -/
structure ApiResult where
  status : Nat
  error : Option String
  db : DB
deriving DecidableEq

/-- Embedding of PATCH /api/leads/:id (src/unnamed/part_004 lines 327-376).
A missing lead throws, the catch block rolls the transaction back and answers
500.  On success the buffered leads updates are committed together; on an
UPDATE failure inside the loop the leads table is rolled back, while the audit
and meta rows already written through the pool remain.  `t` is the clock and
`nid` the first fresh audit id. -/
def patchLead (db : DB) (leadId : Nat) (body : Cells) (t nid : Nat) : ApiResult :=
  match findLead db.leads leadId with
  | none => ⟨500, some "Lead not found", db⟩
  | some old =>
    let r := runPatch db.lead_field_locks leadId old t body [] db.lead_audit_logs db.lead_field_meta nid
    if r.ok then
      ⟨200, none,
        { db with
          leads := db.leads.map fun l => if l.id = leadId then applyUpdates l r.updates else l,
          lead_audit_logs := r.audits,
          lead_field_meta := r.metas }⟩
    else
      ⟨500, some "column does not exist",
        { db with lead_audit_logs := r.audits, lead_field_meta := r.metas }⟩

/-- The latest row of a list of audit rows: ORDER BY created_at DESC LIMIT 1,
with the tie between equal timestamps broken deterministically in favour of
the earlier row of the list. -/
def latestBy : List AuditRow → Option AuditRow
  | [] => none
  | a :: as =>
    match latestBy as with
    | none => some a
    | some b => if a.created_at < b.created_at then some b else some a

/-- SELECT * FROM lead_audit_logs WHERE lead_id = x ORDER BY created_at DESC
LIMIT 1. -/
def latestAudit (auds : List AuditRow) (lid : Nat) : Option AuditRow :=
  latestBy (auds.filter fun a => a.lead_id == lid)

/-- Whether the audit field names a real column on every leads row with this
id, so that UPDATE leads SET field = value does not throw.  The leads rows
carry the schema in this embedding. -/
def colExistsForAll (leads : List LeadRow) (lid : Nat) (f : String) : Bool :=
  leads.all fun l => !(l.id == lid) || (lookupCell l.cells f).isSome

/-- Embedding of POST /api/leads/:id/undo (src/unnamed/part_001 lines
405-446).  With no audit row for the lead it answers 400 Nothing to undo and
changes nothing; otherwise it rewrites the audited field of the lead back to
old_value, deletes the audit rows carrying that id, and answers
undone: true.  An UPDATE against a column missing from the schema throws and
is rolled back. -/
def undoLead (db : DB) (leadId : Nat) : ApiResult :=
  match latestAudit db.lead_audit_logs leadId with
  | none => ⟨400, some "Nothing to undo", db⟩
  | some last =>
    if colExistsForAll db.leads leadId last.field_name then
      ⟨200, none,
        { db with
          leads := db.leads.map fun l =>
            if l.id = leadId then setCell l last.field_name last.old_value else l,
          lead_audit_logs := db.lead_audit_logs.filter fun a => !(a.id == last.id) }⟩
    else ⟨500, some "column does not exist", db⟩

/-- Embedding of enqueueJob (src/unnamed/part_001 lines 135-143): INSERT INTO
background_jobs (job_type, payload, status) VALUES (.., .., pending); the
serial id and the created_at timestamp are passed in explicitly. -/
def enqueueJob (db : DB) (job_type : String) (payload : JobPayload) (id t : Nat) : DB :=
  { db with background_jobs :=
      db.background_jobs ++ [⟨id, job_type, payload, "pending", 0, t, none, none⟩] }

/-- ORDER BY created_at LIMIT 1 over a list of job rows, with the tie between
equal timestamps broken deterministically in favour of the earlier row. -/
def earliestBy : List JobRow → Option JobRow
  | [] => none
  | j :: js =>
    match earliestBy js with
    | none => some j
    | some b => if b.created_at < j.created_at then some b else some j

/-- SELECT * FROM background_jobs WHERE status = pending ORDER BY created_at
LIMIT 1. -/
def selectPending (jobs : List JobRow) : Option JobRow :=
  earliestBy (jobs.filter fun j => j.status == "pending")

/-- UPDATE background_jobs SET ... WHERE id = i. -/
def setJob (db : DB) (i : Nat) (u : JobRow → JobRow) : DB :=
  { db with background_jobs := db.background_jobs.map fun j => if j.id = i then u j else j }

/-- The claiming transaction of processNextJob (src/unnamed/part_001 lines
150-179): select the earliest pending row, mark it processing and increment
attempts, commit.  Returns the selected row snapshot (read before the update)
together with the committed state, or nothing when no row is pending. -/
def claimNextJob (db : DB) : Option (JobRow × DB) :=
  match selectPending db.background_jobs with
  | none => none
  | some j =>
    some (j, setJob db j.id fun r => { r with status := "processing", attempts := r.attempts + 1 })

/-- The lead_id field of a job payload; an import_row payload has none, and
the query WHERE id = undefined then matches no row. -/
def getLeadId : JobPayload → Option Nat
  | .leadRef lid => some lid
  | .importRow _ => none

/-- Embedding of processAIEnrichJob (src/unnamed/part_001 lines 225-244): when
the lead exists, upsert one lead_field_locks row per suggestion key of
aiSuggestLead, in Object.keys insertion order; when no leads row matches, the
function returns without touching any table. -/
def processAIEnrichJob (payload : JobPayload) (db : DB) : Except String DB :=
  match getLeadId payload with
  | none => .ok db
  | some lid =>
    match findLead db.leads lid with
    | none => .ok db
    | some lead =>
      let ai := aiSuggestLead (joinCell (getCell lead "full_name")) (joinCell (getCell lead "company"))
      let locks1 := upsertFieldLock db.lead_field_locks lid "first_name" ai.first_name (some ai.conf_first_name)
      let locks2 := upsertFieldLock locks1 lid "last_name" ai.last_name (some ai.conf_last_name)
      let locks3 := upsertFieldLock locks2 lid "company_short" ai.company_short (some ai.conf_company_short)
      .ok { db with lead_field_locks := locks3 }

/-- A fresh serial id for an inserted leads row. -/
def freshLeadId (db : DB) : Nat :=
  (db.leads.foldl (fun m l => max m l.id) 0) + 1

/-- Embedding of processImportRowJob (src/unnamed/part_001 lines 249-261):
one INSERT INTO leads (data columns, pipeline) VALUES (..., New).  The insert
throws on an invalid column list (a repeated column, or a data key clashing
with the explicit pipeline column); it throws before writing, so a failure
leaves the state untouched.  A payload without a data object throws at
Object.keys. -/
def processImportRowJob (payload : JobPayload) (db : DB) : Except String DB :=
  match payload with
  | .leadRef _ => .error "data is not an object"
  | .importRow data =>
    if (data.map Prod.fst).Nodup ∧ "pipeline" ∉ data.map Prod.fst then
      .ok { db with leads := db.leads ++ [⟨freshLeadId db, data ++ [("pipeline", some "New")]⟩] }
    else .error "duplicate column in INSERT"

/-- Embedding of handleJob (src/unnamed/part_001 lines 210-220): the handler
keyed by the job_type string; a job_type matching neither key runs nothing and
succeeds. -/
def handleJob (job : JobRow) (db : DB) : Except String DB :=
  match (if job.job_type = "ai_enrich" then processAIEnrichJob job.payload db else .ok db) with
  | .error e => .error e
  | .ok db1 =>
    if job.job_type = "import_row" then processImportRowJob job.payload db1 else .ok db1

/-- UPDATE background_jobs SET status = done, completed_at = now() WHERE id. -/
def markDone (db : DB) (i t : Nat) : DB :=
  setJob db i fun r => { r with status := "done", completed_at := some t }

/-- UPDATE background_jobs SET status = failed, last_error = msg WHERE id. -/
def markFailed (db : DB) (i : Nat) (msg : String) : DB :=
  setJob db i fun r => { r with status := "failed", last_error := some msg }

/-- The post-claim half of processNextJob: run the handler on the claimed
snapshot, then mark the job done, or failed with last_error on a throw.  Every
handler above either completes or throws before its first write, so the state
on the error path is the state at claim time. -/
def finishJob (db : DB) (job : JobRow) (t : Nat) : DB :=
  match handleJob job db with
  | .ok db2 => markDone db2 job.id t
  | .error msg => markFailed db job.id msg

/-- Embedding of one call of processNextJob (src/unnamed/part_001 lines
145-205): claim the earliest pending job or return unchanged, then finish
it. -/
def processNextJob (db : DB) (t : Nat) : DB :=
  match claimNextJob db with
  | none => db
  | some (j, db1) => finishJob db1 j t

/-- The event-loop state: the database plus the snapshots of jobs whose
claiming transaction has committed but whose finishing update has not yet
run (a processNextJob call that is still awaiting its handler). -/
structure Sys where
  db : DB
  inflight : List JobRow
deriving DecidableEq

/-- One observable step of the system: an enqueueJob call with a fresh serial
id, the claiming transaction of a processNextJob call, or the finishing half
of a previously claimed call.  processNextJob is exactly a claim step followed
by the matching finish step. -/
inductive Step : Sys → Sys → Prop
  | enqueue (s : Sys) (jt : String) (p : JobPayload) (id t : Nat)
      (hfresh : ∀ j ∈ s.db.background_jobs, j.id ≠ id) :
      Step s ⟨enqueueJob s.db jt p id t, s.inflight⟩
  | claim (s : Sys) (j : JobRow) (db1 : DB)
      (h : claimNextJob s.db = some (j, db1)) :
      Step s ⟨db1, j :: s.inflight⟩
  | finish (s : Sys) (j : JobRow) (t : Nat) (h : j ∈ s.inflight) :
      Step s ⟨finishJob s.db j t, s.inflight.erase j⟩

/-- The status strings a background job may carry. -/
def ValidStatus (st : String) : Prop :=
  st = "pending" ∨ st = "processing" ∨ st = "done" ∨ st = "failed"

/-- The system invariant: job ids are unique, every status is one of the four
constants, the claimed snapshots have distinct ids, and each claimed snapshot
corresponds to a live row currently in status processing. -/
def Inv (s : Sys) : Prop :=
  (s.db.background_jobs.map JobRow.id).Nodup ∧
  (∀ j ∈ s.db.background_jobs, ValidStatus j.status) ∧
  (s.inflight.map JobRow.id).Nodup ∧
  (∀ j ∈ s.inflight, ∃ r ∈ s.db.background_jobs, r.id = j.id) ∧
  (∀ j ∈ s.inflight, ∀ r ∈ s.db.background_jobs, r.id = j.id → r.status = "processing")

/-- The status transitions the queue code can perform on an existing row. -/
def allowedTransitions : List (String × String) :=
  [("pending", "processing"), ("processing", "done"), ("processing", "failed")]

/-- How one step may change the job table: either it appends one fresh pending
row, or it rewrites rows in place, keeping every id and either keeping the
status or moving it along an allowed transition. -/
def StepOk (jobs jobs2 : List JobRow) : Prop :=
  (∃ row, row.status = "pending" ∧ jobs2 = jobs ++ [row]) ∨
  (∃ u : JobRow → JobRow, jobs2 = jobs.map u ∧
    ∀ r ∈ jobs, (u r).id = r.id ∧
      ((u r).status = r.status ∨ (r.status, (u r).status) ∈ allowedTransitions))

end AltoCRM

namespace ServerA

/-- A row of the leads table of the first variant inside src/server.js
(columns created by its migrate function). -/
structure SLead where
  id : Nat
  full_name : Option String
  email : Option String
  company : Option String
  deleted : Bool
  created_at : Nat
deriving DecidableEq

/-- A row of the action_log table of that variant. -/
structure ActionRow where
  lead_id : Nat
  action : String
deriving DecidableEq

/-- The state of that variant: leads plus action_log. -/
structure SDB where
  leads : List SLead
  action_log : List ActionRow
deriving DecidableEq

/-- Embedding of POST /api/leads/delete (src/server.js lines 91-107): UPDATE
leads SET deleted = true WHERE id = ANY(ids), then one DELETED action_log row
per requested id. -/
def deleteLeads (db : SDB) (ids : List Nat) : SDB where
  leads := db.leads.map fun l => if l.id ∈ ids then { l with deleted := true } else l
  action_log := db.action_log ++ ids.map fun i => ⟨i, "DELETED"⟩

/-- Embedding of POST /api/leads/restore (src/server.js lines 110-126): UPDATE
leads SET deleted = false WHERE id = ANY(ids), then one RESTORED action_log row
per requested id. -/
def restoreLeads (db : SDB) (ids : List Nat) : SDB where
  leads := db.leads.map fun l => if l.id ∈ ids then { l with deleted := false } else l
  action_log := db.action_log ++ ids.map fun i => ⟨i, "RESTORED"⟩

/-- Insertion step of the ORDER BY id DESC sort. -/
def insertDesc (l : SLead) : List SLead → List SLead
  | [] => [l]
  | x :: xs => if l.id ≤ x.id then x :: insertDesc l xs else l :: x :: xs

/-- ORDER BY id DESC as an insertion sort. -/
def sortByIdDesc : List SLead → List SLead
  | [] => []
  | x :: xs => insertDesc x (sortByIdDesc xs)

/-- Embedding of GET /api/leads (src/server.js lines 66-75): SELECT * FROM
leads WHERE deleted = false ORDER BY id DESC. -/
def getLeads (db : SDB) : List SLead :=
  sortByIdDesc (db.leads.filter fun l => !l.deleted)

end ServerA

namespace EAV

/-- A row of the lead_values table of the second variant inside src/server.js,
equally a row of leads_value in src/unnamed/part_002 (the updated_at and
updated_by timestamp columns are not modelled). -/
structure CellRow where
  lead_id : String
  field_key : String
  value : Option String
  source : String
  locked : Bool
deriving DecidableEq

/-- SELECT * FROM the value table WHERE lead_id AND field_key (first matching
row). -/
def findCell : List CellRow → String → String → Option CellRow
  | [], _, _ => none
  | r :: rs, lid, f =>
    if r.lead_id = lid ∧ r.field_key = f then some r else findCell rs lid f

/-- Embedding of PUT /api/cell (src/server.js lines 393-411): INSERT INTO
lead_values (lead_id, field_key, value, source, locked) VALUES (.., .., ..,
manual, TRUE) ON CONFLICT (lead_id, field_key) DO UPDATE SET value, source =
manual, locked = TRUE. -/
def putCell (tbl : List CellRow) (leadId fieldKey : String) (value : Option String) :
    List CellRow :=
  match tbl with
  | [] => [⟨leadId, fieldKey, value, "manual", true⟩]
  | r :: rs =>
    if r.lead_id = leadId ∧ r.field_key = fieldKey then
      { r with value := value, source := "manual", locked := true } :: rs
    else r :: putCell rs leadId fieldKey value

/-- Embedding of POST /api/lead-value (src/unnamed/part_002 lines 117-147):
INSERT INTO leads_value (..., locked) VALUES (..., true) ON CONFLICT
(lead_id, field_key) DO UPDATE SET value, source, updated_at — the conflict
branch does not touch the locked column. -/
def leadValueUpsert (tbl : List CellRow) (lead_id field_key : String)
    (value : Option String) (source : String) : List CellRow :=
  match tbl with
  | [] => [⟨lead_id, field_key, value, source, true⟩]
  | r :: rs =>
    if r.lead_id = lead_id ∧ r.field_key = field_key then
      { r with value := value, source := source } :: rs
    else r :: leadValueUpsert rs lead_id field_key value source

/-- The (lead_id, field_key) keys of a value table. -/
def keysOf (tbl : List CellRow) : List (String × String) :=
  tbl.map fun r => (r.lead_id, r.field_key)

/-- Boolean key match used to count the rows of a value table at one key. -/
def keyMatch (lid f : String) (r : CellRow) : Bool :=
  decide (r.lead_id = lid ∧ r.field_key = f)

end EAV

/-! Theorems.  Helper lemmas come first, then one theorem per claim, each with
its witness where the statement carries hypotheses. -/

namespace AltoCRM

theorem forall₂_map_self {α : Type} {P : α → α → Prop} (u : α → α) (l : List α)
    (h : ∀ x ∈ l, P x (u x)) : List.Forall₂ P l (l.map u) := by
  induction l with
  | nil => simp
  | cons x xs ih =>
    simp only [List.map_cons, List.forall₂_cons]
    exact ⟨h x (by simp), ih fun y hy => h y (by simp [hy])⟩

theorem forall₂_refl_of {α : Type} {P : α → α → Prop} (l : List α)
    (h : ∀ x ∈ l, P x x) : List.Forall₂ P l l := by
  induction l with
  | nil => simp
  | cons x xs ih =>
    simp only [List.forall₂_cons]
    exact ⟨h x (by simp), ih fun y hy => h y (by simp [hy])⟩

theorem lookupCell_setCells (cs : Cells) (g : String) (w : Option String) (f : String) :
    lookupCell (setCells cs g w) f =
      if f = g then (lookupCell cs f).map (fun _ => w) else lookupCell cs f := by
  induction cs with
  | nil => simp [setCells, lookupCell]
  | cons c cs ih =>
    have hstep : setCells (c :: cs) g w = (if c.1 = g then (c.1, w) else c) :: setCells cs g w := rfl
    rw [hstep]
    by_cases h2 : c.1 = g
    · rw [if_pos h2]
      by_cases h1 : c.1 = f
      · have hf : f = g := by rw [← h1, h2]
        simp [lookupCell, h1, hf]
      · have hfg : ¬ f = g := fun hh => h1 (by rw [h2, ← hh])
        simp [lookupCell, h1, hfg, ih]
    · rw [if_neg h2]
      by_cases h1 : c.1 = f
      · subst h1
        simp [lookupCell, h2]
      · simp [lookupCell, h1, ih]

theorem lookupCell_setCells_ne {f g : String} (cs : Cells) (w : Option String)
    (h : f ≠ g) : lookupCell (setCells cs g w) f = lookupCell cs f := by
  simp [lookupCell_setCells, h]

theorem lookupCell_setCells_self {f : String} (cs : Cells) (w : Option String)
    (h : (lookupCell cs f).isSome) : lookupCell (setCells cs f w) f = some w := by
  rw [lookupCell_setCells]
  obtain ⟨v, hv⟩ := Option.isSome_iff_exists.mp h
  simp [hv]

theorem applyUpdates_id (ups : Cells) : ∀ l : LeadRow, (applyUpdates l ups).id = l.id := by
  induction ups with
  | nil => intro l; rfl
  | cons c rest ih =>
    intro l
    show (applyUpdates (setCell l c.1 c.2) rest).id = l.id
    rw [ih]
    rfl

theorem lookup_applyUpdates_not_mem (ups : Cells) :
    ∀ (l : LeadRow) (f : String), f ∉ ups.map Prod.fst →
      lookupCell (applyUpdates l ups).cells f = lookupCell l.cells f := by
  induction ups with
  | nil => intro l f _; rfl
  | cons c rest ih =>
    intro l f hf
    simp only [List.map_cons, List.mem_cons, not_or] at hf
    show lookupCell (applyUpdates (setCell l c.1 c.2) rest).cells f = lookupCell l.cells f
    rw [ih _ f hf.2]
    exact lookupCell_setCells_ne _ _ hf.1

theorem lookup_applyUpdates_mem (ups : Cells) :
    ∀ (l : LeadRow) (f : String) (v : Option String),
      (ups.map Prod.fst).Nodup → (f, v) ∈ ups → (lookupCell l.cells f).isSome →
      lookupCell (applyUpdates l ups).cells f = some v := by
  induction ups with
  | nil => intro l f v _ hm; cases hm
  | cons c rest ih =>
    intro l f v hnd hm hs
    simp only [List.map_cons, List.nodup_cons] at hnd
    rcases List.mem_cons.mp hm with heq | hmem
    · subst heq
      show lookupCell (applyUpdates (setCell l f v) rest).cells f = some v
      rw [lookup_applyUpdates_not_mem rest _ f hnd.1]
      exact lookupCell_setCells_self _ _ hs
    · show lookupCell (applyUpdates (setCell l c.1 c.2) rest).cells f = some v
      refine ih _ f v hnd.2 hmem ?_
      show (lookupCell (setCells l.cells c.1 c.2) f).isSome
      rw [lookupCell_setCells]
      obtain ⟨w, hw⟩ := Option.isSome_iff_exists.mp hs
      by_cases h : f = c.1
      · subst h; simp [hw]
      · simp [h, hs]

theorem findLead_mem {ls : List LeadRow} {i : Nat} {l : LeadRow}
    (h : findLead ls i = some l) : l ∈ ls ∧ l.id = i := by
  induction ls with
  | nil => cases h
  | cons x xs ih =>
    by_cases hx : x.id = i
    · simp only [findLead, if_pos hx] at h
      cases h
      exact ⟨by simp, hx⟩
    · simp only [findLead, if_neg hx] at h
      obtain ⟨hm, hid⟩ := ih h
      exact ⟨by simp [hm], hid⟩

theorem findLead_eq_none {ls : List LeadRow} {i : Nat}
    (h : ∀ l ∈ ls, l.id ≠ i) : findLead ls i = none := by
  induction ls with
  | nil => rfl
  | cons x xs ih =>
    simp only [findLead, if_neg (h x (by simp))]
    exact ih fun l hl => h l (by simp [hl])

theorem bool_eq_false_of_ne {b : Bool} (h : ¬ b = true) : b = false := by
  cases b
  · rfl
  · exact absurd rfl h

theorem runPatch_mut_true {locks : List FieldLock} {lid : Nat} {old : LeadRow}
    {f : String} {v : Option String}
    (h1 : f ∉ DERIVED_FIELDS) (h2 : f ∉ INTEGRATION_FIELDS)
    (h3 : ¬ isFieldLockedIn locks lid f = true)
    (h4 : ¬ jsStringOfCell (getCell old f) = jsStringOfValue v) :
    mutatesB locks lid old (f, v) = true := by
  simp [mutatesB, h1, h2, h4, bool_eq_false_of_ne h3]

theorem runPatch_ok_spec (locks : List FieldLock) (lid : Nat) (old : LeadRow) (t : Nat) :
    ∀ (body ups0 : Cells) (aud0 : List AuditRow) (met0 : List FieldMeta) (n : Nat),
      (runPatch locks lid old t body ups0 aud0 met0 n).ok = true →
      (runPatch locks lid old t body ups0 aud0 met0 n).updates =
        ups0 ++ body.filter (mutatesB locks lid old) ∧
      (∀ c ∈ body.filter (mutatesB locks lid old), (lookupCell old.cells c.1).isSome) ∧
      (runPatch locks lid old t body ups0 aud0 met0 n).audits.map auditContent =
        aud0.map auditContent ++ (body.filter (mutatesB locks lid old)).map
          (fun c => (lid, "update", c.1, joinCell (getCell old c.1), c.2, "human")) := by
  intro body
  induction body with
  | nil => intro ups0 aud0 met0 n _; simp [runPatch]
  | cons c rest ih =>
    intro ups0 aud0 met0 n hok
    obtain ⟨f, v⟩ := c
    by_cases h1 : f ∈ DERIVED_FIELDS
    · have hm : mutatesB locks lid old (f, v) = false := by simp [mutatesB, h1]
      simp only [runPatch, if_pos h1] at hok ⊢
      simpa [hm] using ih ups0 aud0 met0 n hok
    · by_cases h2 : f ∈ INTEGRATION_FIELDS
      · have hm : mutatesB locks lid old (f, v) = false := by simp [mutatesB, h2]
        simp only [runPatch, if_neg h1, if_pos h2] at hok ⊢
        simpa [hm] using ih ups0 aud0 met0 n hok
      · by_cases h3 : isFieldLockedIn locks lid f = true
        · have hm : mutatesB locks lid old (f, v) = false := by simp [mutatesB, h3]
          simp only [runPatch, if_neg h1, if_neg h2, if_pos h3] at hok ⊢
          simpa [hm] using ih ups0 aud0 met0 n hok
        · by_cases h4 : jsStringOfCell (getCell old f) = jsStringOfValue v
          · have hm : mutatesB locks lid old (f, v) = false := by simp [mutatesB, h4]
            simp only [runPatch, if_neg h1, if_neg h2, if_neg h3, if_pos h4] at hok ⊢
            simpa [hm] using ih ups0 aud0 met0 n hok
          · have hm := @runPatch_mut_true locks lid old f v h1 h2 h3 h4
            cases hw : getCell old f with
            | none =>
              rw [hw] at h4
              simp only [runPatch, if_neg h1, if_neg h2, if_neg h3, hw, if_neg h4] at hok
              simp at hok
            | some w =>
              have hjoin : joinCell (getCell old f) = w := by simp [hw, joinCell]
              rw [hw] at h4
              simp only [runPatch, if_neg h1, if_neg h2, if_neg h3, hw, if_neg h4] at hok ⊢
              obtain ⟨hu, hsome, ha⟩ :=
                ih (ups0 ++ [(f, v)])
                  (aud0 ++ [⟨n, lid, "update", f, w, v, "human", t⟩])
                  (upsertMetaList met0 ⟨lid, f, "manual", none, false⟩) (n + 1) hok
              refine ⟨?_, ?_, ?_⟩
              · simp [hu, hm, List.filter_cons]
              · intro d hd
                simp only [List.filter_cons, hm, if_pos] at hd
                rcases List.mem_cons.mp hd with rfl | hd2
                · show (lookupCell old.cells f).isSome
                  show (getCell old f).isSome
                  simp [hw]
                · exact hsome d hd2
              · rw [ha]
                simp [auditContent, hjoin, List.filter_cons, hm]

theorem runPatch_updates_mem (locks : List FieldLock) (lid : Nat) (old : LeadRow) (t : Nat) :
    ∀ (body ups0 : Cells) (aud0 : List AuditRow) (met0 : List FieldMeta) (n : Nat),
      ∀ c ∈ (runPatch locks lid old t body ups0 aud0 met0 n).updates,
        c ∈ ups0 ∨ isFieldLockedIn locks lid c.1 = false := by
  intro body
  induction body with
  | nil => intro ups0 aud0 met0 n c hc; exact Or.inl hc
  | cons e rest ih =>
    intro ups0 aud0 met0 n c hc
    obtain ⟨f, v⟩ := e
    by_cases h1 : f ∈ DERIVED_FIELDS
    · simp only [runPatch, if_pos h1] at hc; exact ih _ _ _ _ c hc
    · by_cases h2 : f ∈ INTEGRATION_FIELDS
      · simp only [runPatch, if_neg h1, if_pos h2] at hc; exact ih _ _ _ _ c hc
      · by_cases h3 : isFieldLockedIn locks lid f = true
        · simp only [runPatch, if_neg h1, if_neg h2, if_pos h3] at hc; exact ih _ _ _ _ c hc
        · by_cases h4 : jsStringOfCell (getCell old f) = jsStringOfValue v
          · simp only [runPatch, if_neg h1, if_neg h2, if_neg h3, if_pos h4] at hc
            exact ih _ _ _ _ c hc
          · cases hw : getCell old f with
            | none =>
              rw [hw] at h4
              simp only [runPatch, if_neg h1, if_neg h2, if_neg h3, hw, if_neg h4] at hc
              exact Or.inl hc
            | some w =>
              rw [hw] at h4
              simp only [runPatch, if_neg h1, if_neg h2, if_neg h3, hw, if_neg h4] at hc
              rcases ih _ _ _ _ c hc with hin | hlk
              · rcases List.mem_append.mp hin with hin0 | hnew
                · exact Or.inl hin0
                · have hcv : c = (f, v) := by simpa using hnew
                  subst hcv
                  exact Or.inr (bool_eq_false_of_ne h3)
              · exact Or.inr hlk

theorem runPatch_audits_mem (locks : List FieldLock) (lid : Nat) (old : LeadRow) (t : Nat) :
    ∀ (body ups0 : Cells) (aud0 : List AuditRow) (met0 : List FieldMeta) (n : Nat),
      ∀ a ∈ (runPatch locks lid old t body ups0 aud0 met0 n).audits,
        a ∈ aud0 ∨ (a.lead_id = lid ∧ isFieldLockedIn locks lid a.field_name = false) := by
  intro body
  induction body with
  | nil => intro ups0 aud0 met0 n a ha; exact Or.inl ha
  | cons e rest ih =>
    intro ups0 aud0 met0 n a ha
    obtain ⟨f, v⟩ := e
    by_cases h1 : f ∈ DERIVED_FIELDS
    · simp only [runPatch, if_pos h1] at ha; exact ih _ _ _ _ a ha
    · by_cases h2 : f ∈ INTEGRATION_FIELDS
      · simp only [runPatch, if_neg h1, if_pos h2] at ha; exact ih _ _ _ _ a ha
      · by_cases h3 : isFieldLockedIn locks lid f = true
        · simp only [runPatch, if_neg h1, if_neg h2, if_pos h3] at ha; exact ih _ _ _ _ a ha
        · by_cases h4 : jsStringOfCell (getCell old f) = jsStringOfValue v
          · simp only [runPatch, if_neg h1, if_neg h2, if_neg h3, if_pos h4] at ha
            exact ih _ _ _ _ a ha
          · cases hw : getCell old f with
            | none =>
              rw [hw] at h4
              simp only [runPatch, if_neg h1, if_neg h2, if_neg h3, hw, if_neg h4] at ha
              exact Or.inl ha
            | some w =>
              rw [hw] at h4
              simp only [runPatch, if_neg h1, if_neg h2, if_neg h3, hw, if_neg h4] at ha
              rcases ih _ _ _ _ a ha with hin | hr
              · rcases List.mem_append.mp hin with hin0 | hnew
                · exact Or.inl hin0
                · have hav : a = ⟨n, lid, "update", f, w, v, "human", t⟩ := by simpa using hnew
                  subst hav
                  exact Or.inr ⟨rfl, bool_eq_false_of_ne h3⟩
              · exact Or.inr hr

theorem nodup_keys_eq {l : Cells} (h : (l.map Prod.fst).Nodup) :
    ∀ c ∈ l, ∀ d ∈ l, c.1 = d.1 → c = d := by
  induction l with
  | nil => intro c hc; cases hc
  | cons e rest ih =>
    simp only [List.map_cons, List.nodup_cons] at h
    intro c hc d hd hcd
    rcases List.mem_cons.mp hc with rfl | hc2 <;> rcases List.mem_cons.mp hd with h5 | hd2
    · rw [h5]
    · exact absurd (hcd ▸ List.mem_map_of_mem Prod.fst hd2) h.1
    · subst h5
      exact absurd (hcd ▸ List.mem_map_of_mem Prod.fst hc2) h.1
    · exact ih h.2 c hc2 d hd2 hcd

/-- C3: for every PATCH /api/leads/:id request and every field of its body,
when lead_field_locks records the (lead, field) pair as locked, the request
leaves the stored value of that field unchanged on every leads row and writes
no lead_audit_logs row for that field of that lead, whatever else happens. -/
theorem patch_locked_field_frame (db : DB) (leadId : Nat) (body : Cells) (f : String)
    (t nid : Nat) (hlock : isFieldLockedIn db.lead_field_locks leadId f = true) :
    List.Forall₂
      (fun l l2 : LeadRow => l2.id = l.id ∧ lookupCell l2.cells f = lookupCell l.cells f)
      db.leads (patchLead db leadId body t nid).db.leads ∧
    (∀ a ∈ (patchLead db leadId body t nid).db.lead_audit_logs,
      a ∈ db.lead_audit_logs ∨ ¬ (a.lead_id = leadId ∧ a.field_name = f)) := by
  cases hfl : findLead db.leads leadId with
  | none =>
    have hres : patchLead db leadId body t nid = ⟨500, some "Lead not found", db⟩ := by
      simp [patchLead, hfl]
    rw [hres]
    exact ⟨forall₂_refl_of _ (fun x _ => ⟨rfl, rfl⟩), fun a ha => Or.inl ha⟩
  | some old =>
    cases hE : runPatch db.lead_field_locks leadId old t body [] db.lead_audit_logs db.lead_field_meta nid with
    | mk ok ups aud met =>
      have hups : ∀ c ∈ ups, isFieldLockedIn db.lead_field_locks leadId c.1 = false := by
        intro c hc
        have h0 := runPatch_updates_mem db.lead_field_locks leadId old t body []
          db.lead_audit_logs db.lead_field_meta nid c
        rw [hE] at h0
        rcases h0 hc with h1 | h1
        · cases h1
        · exact h1
      have hkeys : f ∉ ups.map Prod.fst := by
        intro hmem
        obtain ⟨c, hc, hcf⟩ := List.mem_map.mp hmem
        have hc0 := hups c hc
        rw [hcf] at hc0
        rw [hc0] at hlock
        cases hlock
      have hauds : ∀ a ∈ aud, a ∈ db.lead_audit_logs ∨ ¬ (a.lead_id = leadId ∧ a.field_name = f) := by
        intro a ha
        have h0 := runPatch_audits_mem db.lead_field_locks leadId old t body []
          db.lead_audit_logs db.lead_field_meta nid a
        rw [hE] at h0
        rcases h0 ha with h1 | ⟨hla, hlf⟩
        · exact Or.inl h1
        · right
          rintro ⟨-, hfa⟩
          rw [hfa] at hlf
          rw [hlf] at hlock
          cases hlock
      cases ok with
      | false =>
        have hres : patchLead db leadId body t nid =
            ⟨500, some "column does not exist",
              { db with lead_audit_logs := aud, lead_field_meta := met }⟩ := by
          simp [patchLead, hfl, hE]
        rw [hres]
        exact ⟨forall₂_refl_of _ (fun x _ => ⟨rfl, rfl⟩), hauds⟩
      | true =>
        have hres : patchLead db leadId body t nid =
            ⟨200, none,
              { db with
                leads := db.leads.map fun l => if l.id = leadId then applyUpdates l ups else l,
                lead_audit_logs := aud, lead_field_meta := met }⟩ := by
          simp [patchLead, hfl, hE]
        rw [hres]
        constructor
        · refine forall₂_map_self _ _ fun l _ => ?_
          by_cases hid : l.id = leadId
          · rw [if_pos hid]
            exact ⟨applyUpdates_id _ _, lookup_applyUpdates_not_mem _ _ _ hkeys⟩
          · rw [if_neg hid]
            exact ⟨rfl, rfl⟩
        · exact hauds

/-- C3 witness: a concrete request against a lead whose email field is locked
leaves the email value untouched. -/
theorem patch_locked_field_frame_witness :
    List.Forall₂
      (fun l l2 : LeadRow => l2.id = l.id ∧ lookupCell l2.cells "email" = lookupCell l.cells "email")
      [⟨1, [("email", some "a")]⟩]
      (patchLead ⟨[⟨1, [("email", some "a")]⟩], [⟨1, "email", none, none, true, "ai"⟩], [], [], []⟩
        1 [("email", some "b")] 0 0).db.leads :=
  (patch_locked_field_frame
    ⟨[⟨1, [("email", some "a")]⟩], [⟨1, "email", none, none, true, "ai"⟩], [], [], []⟩
    1 [("email", some "b")] "email" 0 0 (by decide)).1

/-- C4: a successful PATCH writes exactly the body fields that differ as
strings from the stored value and are not locked, derived or integration
owned; the updated row carries the new value on each mutated field and the old
value elsewhere, and the audit log grows by exactly one human update row per
mutated field recording old and new value. -/
theorem patch_success_updates_and_audit (db : DB) (leadId : Nat) (body : Cells)
    (t nid : Nat) (old : LeadRow)
    (hold : findLead db.leads leadId = some old)
    (hnd : (body.map Prod.fst).Nodup)
    (hst : (patchLead db leadId body t nid).status = 200) :
    (patchLead db leadId body t nid).db.leads =
      db.leads.map (fun l => if l.id = leadId
        then applyUpdates l (body.filter (mutatesB db.lead_field_locks leadId old)) else l) ∧
    applyUpdates old (body.filter (mutatesB db.lead_field_locks leadId old))
      ∈ (patchLead db leadId body t nid).db.leads ∧
    (∀ c ∈ body, mutatesB db.lead_field_locks leadId old c = true →
      lookupCell (applyUpdates old
        (body.filter (mutatesB db.lead_field_locks leadId old))).cells c.1 = some c.2) ∧
    (∀ c ∈ body, mutatesB db.lead_field_locks leadId old c = false →
      lookupCell (applyUpdates old
        (body.filter (mutatesB db.lead_field_locks leadId old))).cells c.1 =
        lookupCell old.cells c.1) ∧
    (patchLead db leadId body t nid).db.lead_audit_logs.map auditContent =
      db.lead_audit_logs.map auditContent ++
        (body.filter (mutatesB db.lead_field_locks leadId old)).map
          (fun c => (leadId, "update", c.1, joinCell (getCell old c.1), c.2, "human")) := by
  cases hE : runPatch db.lead_field_locks leadId old t body [] db.lead_audit_logs db.lead_field_meta nid with
  | mk ok ups aud met =>
    cases ok with
    | false =>
      have h500 : (patchLead db leadId body t nid).status = 500 := by
        simp [patchLead, hold, hE]
      rw [h500] at hst
      cases hst
    | true =>
      have hspec := runPatch_ok_spec db.lead_field_locks leadId old t body []
        db.lead_audit_logs db.lead_field_meta nid
      rw [hE] at hspec
      obtain ⟨hu, hsome, ha⟩ := hspec rfl
      simp only [List.nil_append] at hu
      subst hu
      have hres : patchLead db leadId body t nid =
          ⟨200, none,
            { db with
              leads := db.leads.map fun l =>
                if l.id = leadId
                then applyUpdates l (body.filter (mutatesB db.lead_field_locks leadId old)) else l,
              lead_audit_logs := aud, lead_field_meta := met }⟩ := by
        simp [patchLead, hold, hE]
      rw [hres]
      have hfnd : (((body.filter (mutatesB db.lead_field_locks leadId old)).map Prod.fst)).Nodup :=
        hnd.sublist ((List.filter_sublist body).map Prod.fst)
      obtain ⟨hoom, hoid⟩ := findLead_mem hold
      refine ⟨rfl, ?_, ?_, ?_, ha⟩
      · exact List.mem_map.mpr ⟨old, hoom, by rw [if_pos hoid]⟩
      · intro c hc hmc
        have hcf : c ∈ body.filter (mutatesB db.lead_field_locks leadId old) :=
          List.mem_filter.mpr ⟨hc, hmc⟩
        exact lookup_applyUpdates_mem _ _ c.1 c.2 hfnd hcf (hsome c hcf)
      · intro c hc hmc
        refine lookup_applyUpdates_not_mem _ _ _ ?_
        intro hmem
        obtain ⟨d, hd, hdf⟩ := List.mem_map.mp hmem
        have hdb : d ∈ body := (List.mem_filter.mp hd).1
        have hdm : mutatesB db.lead_field_locks leadId old d = true := (List.mem_filter.mp hd).2
        have hdc : d = c := nodup_keys_eq hnd d hdb c hc hdf
        rw [hdc] at hdm
        rw [hdm] at hmc
        cases hmc

/-- C4 witness: a concrete successful PATCH on an unlocked differing field
puts the updated row into the leads table. -/
theorem patch_success_updates_and_audit_witness :
    applyUpdates ⟨1, [("email", some "a")]⟩
        ([("email", some "b")].filter (mutatesB [] 1 ⟨1, [("email", some "a")]⟩))
      ∈ (patchLead ⟨[⟨1, [("email", some "a")]⟩], [], [], [], []⟩ 1
          [("email", some "b")] 0 0).db.leads :=
  (patch_success_updates_and_audit ⟨[⟨1, [("email", some "a")]⟩], [], [], [], []⟩ 1
    [("email", some "b")] 0 0 ⟨1, [("email", some "a")]⟩
    (by decide) (by decide) (by decide)).2.1

/-- C8: a PATCH /api/leads/:id request that does not succeed leaves the leads
table exactly as it was (the transaction is rolled back), and a request naming
a lead that does not exist answers with the 500 error status. -/
theorem patch_error_rollback (db : DB) (leadId : Nat) (body : Cells) (t nid : Nat) :
    ((patchLead db leadId body t nid).status ≠ 200 →
      (patchLead db leadId body t nid).db.leads = db.leads) ∧
    (findLead db.leads leadId = none → (patchLead db leadId body t nid).status = 500) := by
  cases hfl : findLead db.leads leadId with
  | none =>
    have hres : patchLead db leadId body t nid = ⟨500, some "Lead not found", db⟩ := by
      simp [patchLead, hfl]
    rw [hres]
    exact ⟨fun _ => rfl, fun _ => rfl⟩
  | some old =>
    cases hE : runPatch db.lead_field_locks leadId old t body [] db.lead_audit_logs db.lead_field_meta nid with
    | mk ok ups aud met =>
      cases ok with
      | false =>
        have hres : patchLead db leadId body t nid =
            ⟨500, some "column does not exist",
              { db with lead_audit_logs := aud, lead_field_meta := met }⟩ := by
          simp [patchLead, hfl, hE]
        rw [hres]
        refine ⟨fun _ => rfl, fun hnone => ?_⟩
        cases hnone
      | true =>
        have hres : patchLead db leadId body t nid =
            ⟨200, none,
              { db with
                leads := db.leads.map fun l => if l.id = leadId then applyUpdates l ups else l,
                lead_audit_logs := aud, lead_field_meta := met }⟩ := by
          simp [patchLead, hfl, hE]
        rw [hres]
        refine ⟨fun hne => absurd rfl hne, fun hnone => ?_⟩
        cases hnone

/-- C8 witness: PATCH against an empty leads table answers 500. -/
theorem patch_error_rollback_witness :
    (patchLead ⟨[], [], [], [], []⟩ 1 [] 0 0).status = 500 :=
  (patch_error_rollback ⟨[], [], [], [], []⟩ 1 [] 0 0).2 rfl

/-- C6 counterexample: on the lead with full_name " John" and company "" the
code returns null for first_name and company_short, while the claim prescribes
the empty-string substring before the first space for first_name and the
empty first token for company_short. -/
theorem aiSuggestLead_claim_counterexample :
    (aiSuggestLead (some " John") (some "")).first_name = none ∧
    (aiSuggestLeadClaimed (some " John") (some "")).first_name = some "" ∧
    (aiSuggestLead (some " John") (some "")).company_short = none ∧
    (aiSuggestLeadClaimed (some " John") (some "")).company_short = some "" ∧
    (none : Option String) ≠ some "" :=
  ⟨by decide, by decide, by decide, by decide, by decide⟩

/-- C6 amended: for every lead record, aiSuggestLead agrees with the amended
reading of the claim on all three suggestions, and its confidence values are
the fixed constants 0.9, 0.9 and 0.7. -/
theorem aiSuggestLead_amended_spec (full_name company : Option String) :
    aiSuggestLead full_name company = aiSuggestLeadAmended full_name company ∧
    (aiSuggestLead full_name company).conf_first_name = 9/10 ∧
    (aiSuggestLead full_name company).conf_last_name = 9/10 ∧
    (aiSuggestLead full_name company).conf_company_short = 7/10 := by
  refine ⟨?_, rfl, rfl, rfl⟩
  cases full_name <;> cases company <;> rfl

theorem latestBy_eq_none {l : List AuditRow} : latestBy l = none ↔ l = [] := by
  cases l with
  | nil => simp [latestBy]
  | cons a as =>
    simp only [latestBy]
    cases latestBy as <;> simp_all
    split <;> simp

theorem latestBy_mem {l : List AuditRow} {a : AuditRow} (h : latestBy l = some a) : a ∈ l := by
  induction l generalizing a with
  | nil => cases h
  | cons x xs ih =>
    simp only [latestBy] at h
    cases hx : latestBy xs with
    | none =>
      rw [hx] at h
      cases h
      simp
    | some b =>
      rw [hx] at h
      have h2 : (if x.created_at < b.created_at then some b else some x) = some a := h
      by_cases hlt : x.created_at < b.created_at
      · rw [if_pos hlt] at h2
        cases h2
        simp [ih hx]
      · rw [if_neg hlt] at h2
        cases h2
        simp

theorem latestBy_max {l : List AuditRow} {a : AuditRow} (h : latestBy l = some a) :
    ∀ b ∈ l, b.created_at ≤ a.created_at := by
  induction l generalizing a with
  | nil => cases h
  | cons x xs ih =>
    simp only [latestBy] at h
    cases hx : latestBy xs with
    | none =>
      rw [hx] at h
      cases h
      have hnil : xs = [] := latestBy_eq_none.mp hx
      subst hnil
      intro b hb
      simp at hb
      subst hb
      exact le_refl _
    | some b0 =>
      rw [hx] at h
      have h2 : (if x.created_at < b0.created_at then some b0 else some x) = some a := h
      by_cases hlt : x.created_at < b0.created_at
      · rw [if_pos hlt] at h2
        cases h2
        intro b hb
        rcases List.mem_cons.mp hb with rfl | hb2
        · exact le_of_lt hlt
        · exact ih hx b hb2
      · rw [if_neg hlt] at h2
        cases h2
        intro b hb
        rcases List.mem_cons.mp hb with rfl | hb2
        · exact le_refl _
        · exact le_trans (ih hx b hb2) (le_of_not_lt hlt)

theorem filter_ne_id_length {l : List AuditRow} {last : AuditRow}
    (hnd : (l.map AuditRow.id).Nodup) (hm : last ∈ l) :
    (l.filter fun a => !(a.id == last.id)).length + 1 = l.length := by
  induction l with
  | nil => cases hm
  | cons x xs ih =>
    simp only [List.map_cons, List.nodup_cons] at hnd
    rcases List.mem_cons.mp hm with rfl | hm2
    · have hall : xs.filter (fun a => !(a.id == last.id)) = xs := by
        refine List.filter_eq_self.mpr fun a ha => ?_
        simp only [Bool.not_eq_true']
        have : a.id ≠ last.id := fun hh => hnd.1 (hh ▸ List.mem_map_of_mem AuditRow.id ha)
        simpa using this
      simp [List.filter_cons, hall]
    · have hne : x.id ≠ last.id := by
        intro hh
        exact hnd.1 (hh ▸ List.mem_map_of_mem AuditRow.id hm2)
      simp only [List.filter_cons]
      have : (!(x.id == last.id)) = true := by simpa using hne
      rw [if_pos this]
      simp only [List.length_cons]
      rw [← ih hnd.2 hm2]

/-- C5: POST /api/leads/:id/undo.  With no audit row for the lead it answers
400 Nothing to undo and changes nothing.  Otherwise the selected row is a most
recent audit row of the lead, and provided its field names a real column the
endpoint answers successfully, rewrites exactly that field of the lead back to
the recorded old_value, and deletes exactly that one audit row. -/
theorem undo_spec (db : DB) (leadId : Nat) :
    ((∀ a ∈ db.lead_audit_logs, a.lead_id ≠ leadId) →
      undoLead db leadId = ⟨400, some "Nothing to undo", db⟩) ∧
    ((∃ a ∈ db.lead_audit_logs, a.lead_id = leadId) →
      ∃ last, latestAudit db.lead_audit_logs leadId = some last) ∧
    (∀ last, latestAudit db.lead_audit_logs leadId = some last →
      last ∈ db.lead_audit_logs ∧ last.lead_id = leadId ∧
      (∀ a ∈ db.lead_audit_logs, a.lead_id = leadId → a.created_at ≤ last.created_at) ∧
      (colExistsForAll db.leads leadId last.field_name = true →
        (undoLead db leadId).status = 200 ∧ (undoLead db leadId).error = none ∧
        (undoLead db leadId).db.leads = db.leads.map (fun l =>
          if l.id = leadId then setCell l last.field_name last.old_value else l) ∧
        (∀ l ∈ db.leads, l.id = leadId →
          lookupCell (setCell l last.field_name last.old_value).cells last.field_name =
            some last.old_value) ∧
        (undoLead db leadId).db.lead_audit_logs =
          db.lead_audit_logs.filter (fun a => !(a.id == last.id)) ∧
        (∀ a ∈ db.lead_audit_logs,
          (a ∈ (undoLead db leadId).db.lead_audit_logs ↔ a.id ≠ last.id)) ∧
        ((db.lead_audit_logs.map AuditRow.id).Nodup →
          (undoLead db leadId).db.lead_audit_logs.length + 1 =
            db.lead_audit_logs.length))) := by
  refine ⟨?_, ?_, ?_⟩
  · intro hno
    have hfil : db.lead_audit_logs.filter (fun a => a.lead_id == leadId) = [] := by
      refine List.filter_eq_nil_iff.mpr fun a ha => ?_
      simpa using hno a ha
    have hnone : latestAudit db.lead_audit_logs leadId = none := by
      rw [latestAudit, hfil]
      rfl
    simp [undoLead, hnone]
  · rintro ⟨a, ha, hal⟩
    cases hl : latestAudit db.lead_audit_logs leadId with
    | none =>
      rw [latestAudit] at hl
      have := latestBy_eq_none.mp hl
      have ham : a ∈ db.lead_audit_logs.filter (fun a => a.lead_id == leadId) :=
        List.mem_filter.mpr ⟨ha, by simpa using hal⟩
      rw [this] at ham
      cases ham
    | some last => exact ⟨last, rfl⟩
  · intro last hl
    have hmemf : last ∈ db.lead_audit_logs.filter (fun a => a.lead_id == leadId) :=
      latestBy_mem hl
    have hmem : last ∈ db.lead_audit_logs := (List.mem_filter.mp hmemf).1
    have hlid : last.lead_id = leadId := by
      have := (List.mem_filter.mp hmemf).2
      simpa using this
    refine ⟨hmem, hlid, ?_, ?_⟩
    · intro a ha hal
      exact latestBy_max hl a (List.mem_filter.mpr ⟨ha, by simpa using hal⟩)
    · intro hcol
      have hres : undoLead db leadId =
          ⟨200, none,
            { db with
              leads := db.leads.map fun l =>
                if l.id = leadId then setCell l last.field_name last.old_value else l,
              lead_audit_logs := db.lead_audit_logs.filter fun a => !(a.id == last.id) }⟩ := by
        simp [undoLead, hl, hcol]
      rw [hres]
      refine ⟨rfl, rfl, rfl, ?_, rfl, ?_, ?_⟩
      · intro l hml hid
        have hsome : (lookupCell l.cells last.field_name).isSome := by
          have := List.all_eq_true.mp hcol l hml
          simpa [hid] using this
        exact lookupCell_setCells_self _ _ hsome
      · intro a ha
        constructor
        · intro haf
          have := (List.mem_filter.mp haf).2
          simpa using this
        · intro hne
          exact List.mem_filter.mpr ⟨ha, by simpa using hne⟩
      · intro hnd
        exact filter_ne_id_length hnd hmem

/-- C5 witness: a concrete undo against a lead with one audit row answers 200
and restores the old value. -/
theorem undo_spec_witness :
    (undoLead ⟨[⟨1, [("email", some "a")]⟩], [], [],
        [⟨7, 1, "update", "email", some "old", some "a", "human", 5⟩], []⟩ 1).status = 200 :=
  ((undo_spec ⟨[⟨1, [("email", some "a")]⟩], [], [],
      [⟨7, 1, "update", "email", some "old", some "a", "human", 5⟩], []⟩ 1).2.2
    ⟨7, 1, "update", "email", some "old", some "a", "human", 5⟩ (by decide)).2.2.2
    (by decide) |>.1

theorem earliestBy_eq_none {l : List JobRow} : earliestBy l = none ↔ l = [] := by
  cases l with
  | nil => simp [earliestBy]
  | cons a as =>
    simp only [earliestBy]
    cases earliestBy as <;> simp_all
    split <;> simp

theorem earliestBy_mem {l : List JobRow} {a : JobRow} (h : earliestBy l = some a) : a ∈ l := by
  induction l generalizing a with
  | nil => cases h
  | cons x xs ih =>
    simp only [earliestBy] at h
    cases hx : earliestBy xs with
    | none =>
      rw [hx] at h
      cases h
      simp
    | some b =>
      rw [hx] at h
      have h2 : (if b.created_at < x.created_at then some b else some x) = some a := h
      by_cases hlt : b.created_at < x.created_at
      · rw [if_pos hlt] at h2
        cases h2
        simp [ih hx]
      · rw [if_neg hlt] at h2
        cases h2
        simp

theorem earliestBy_min {l : List JobRow} {a : JobRow} (h : earliestBy l = some a) :
    ∀ b ∈ l, a.created_at ≤ b.created_at := by
  induction l generalizing a with
  | nil => cases h
  | cons x xs ih =>
    simp only [earliestBy] at h
    cases hx : earliestBy xs with
    | none =>
      rw [hx] at h
      cases h
      have hnil : xs = [] := earliestBy_eq_none.mp hx
      subst hnil
      intro b hb
      simp at hb
      subst hb
      exact le_refl _
    | some b0 =>
      rw [hx] at h
      have h2 : (if b0.created_at < x.created_at then some b0 else some x) = some a := h
      by_cases hlt : b0.created_at < x.created_at
      · rw [if_pos hlt] at h2
        cases h2
        intro b hb
        rcases List.mem_cons.mp hb with rfl | hb2
        · exact le_of_lt hlt
        · exact ih hx b hb2
      · rw [if_neg hlt] at h2
        cases h2
        intro b hb
        rcases List.mem_cons.mp hb with rfl | hb2
        · exact le_refl _
        · exact le_trans (le_of_not_lt hlt) (ih hx b hb2)

theorem processAIEnrichJob_jobs {p : JobPayload} {db db2 : DB}
    (h : processAIEnrichJob p db = .ok db2) :
    db2.background_jobs = db.background_jobs := by
  cases p with
  | importRow data =>
    simp only [processAIEnrichJob, getLeadId] at h
    cases h
    rfl
  | leadRef lid =>
    simp only [processAIEnrichJob, getLeadId] at h
    cases hf : findLead db.leads lid with
    | none =>
      rw [hf] at h
      cases h
      rfl
    | some lead =>
      rw [hf] at h
      cases h
      rfl

theorem processImportRowJob_jobs {p : JobPayload} {db db2 : DB}
    (h : processImportRowJob p db = .ok db2) :
    db2.background_jobs = db.background_jobs := by
  cases p with
  | leadRef x =>
    simp only [processImportRowJob] at h
    cases h
  | importRow data =>
    simp only [processImportRowJob] at h
    by_cases hc : (data.map Prod.fst).Nodup ∧ "pipeline" ∉ data.map Prod.fst
    · rw [if_pos hc] at h
      cases h
      rfl
    · rw [if_neg hc] at h
      cases h

theorem handleJob_jobs {job : JobRow} {db db2 : DB} (h : handleJob job db = .ok db2) :
    db2.background_jobs = db.background_jobs := by
  unfold handleJob at h
  cases hfirst : (if job.job_type = "ai_enrich" then processAIEnrichJob job.payload db else .ok db) with
  | error e =>
    rw [hfirst] at h
    cases h
  | ok db1 =>
    rw [hfirst] at h
    have h2 : (if job.job_type = "import_row" then processImportRowJob job.payload db1
        else Except.ok db1) = Except.ok db2 := h
    have h1 : db1.background_jobs = db.background_jobs := by
      by_cases hjt : job.job_type = "ai_enrich"
      · rw [if_pos hjt] at hfirst
        exact processAIEnrichJob_jobs hfirst
      · rw [if_neg hjt] at hfirst
        cases hfirst
        rfl
    by_cases hjt2 : job.job_type = "import_row"
    · rw [if_pos hjt2] at h2
      rw [processImportRowJob_jobs h2, h1]
    · rw [if_neg hjt2] at h2
      cases h2
      exact h1

/-- C1: one call of processNextJob on any job table state.  With no pending
row nothing changes.  Otherwise a pending row with minimal created_at is
claimed, its status is first set to processing (with attempts incremented),
the handler keyed by its job_type string runs, and the final table marks
exactly that row done on success, or failed with last_error set to the throw
message, leaving every other row unchanged. -/
theorem processNextJob_spec (db : DB) (t : Nat) :
    ((∀ j ∈ db.background_jobs, j.status ≠ "pending") → processNextJob db t = db) ∧
    ((∃ j ∈ db.background_jobs, j.status = "pending") →
      ∃ j db1, claimNextJob db = some (j, db1)) ∧
    (∀ (j : JobRow) (db1 : DB), claimNextJob db = some (j, db1) →
      j ∈ db.background_jobs ∧ j.status = "pending" ∧
      (∀ k ∈ db.background_jobs, k.status = "pending" → j.created_at ≤ k.created_at) ∧
      db1.background_jobs = db.background_jobs.map (fun r =>
        if r.id = j.id then { r with status := "processing", attempts := r.attempts + 1 } else r) ∧
      (match handleJob j db1 with
       | .ok db2 =>
         processNextJob db t = markDone db2 j.id t ∧
         (processNextJob db t).background_jobs = db.background_jobs.map (fun r =>
           if r.id = j.id
           then { r with status := "done", attempts := r.attempts + 1, completed_at := some t }
           else r)
       | .error msg =>
         processNextJob db t = markFailed db1 j.id msg ∧
         (processNextJob db t).background_jobs = db.background_jobs.map (fun r =>
           if r.id = j.id
           then { r with status := "failed", attempts := r.attempts + 1, last_error := some msg }
           else r))) := by
  refine ⟨?_, ?_, ?_⟩
  · intro hno
    have hfil : db.background_jobs.filter (fun j => j.status == "pending") = [] :=
      List.filter_eq_nil_iff.mpr fun j hj => by simpa using hno j hj
    have hsel : selectPending db.background_jobs = none := by
      rw [selectPending, hfil]
      rfl
    simp [processNextJob, claimNextJob, hsel]
  · rintro ⟨j, hj, hjs⟩
    cases hsel : selectPending db.background_jobs with
    | none =>
      rw [selectPending] at hsel
      have hnil := earliestBy_eq_none.mp hsel
      have hjm : j ∈ db.background_jobs.filter (fun k => k.status == "pending") :=
        List.mem_filter.mpr ⟨hj, by simpa using hjs⟩
      rw [hnil] at hjm
      cases hjm
    | some j0 =>
      exact ⟨j0, setJob db j0.id fun r =>
        { r with status := "processing", attempts := r.attempts + 1 },
        by simp [claimNextJob, hsel]⟩
  · intro j db1 hc
    cases hsel : selectPending db.background_jobs with
    | none =>
      rw [claimNextJob, hsel] at hc
      cases hc
    | some j0 =>
      rw [claimNextJob, hsel] at hc
      cases hc
      have hmemf : j ∈ db.background_jobs.filter (fun k => k.status == "pending") :=
        earliestBy_mem hsel
      have hmem : j ∈ db.background_jobs := (List.mem_filter.mp hmemf).1
      have hpend : j.status = "pending" := by
        have hp := (List.mem_filter.mp hmemf).2
        simpa using hp
      have hmin : ∀ k ∈ db.background_jobs, k.status = "pending" →
          j.created_at ≤ k.created_at := by
        intro k hk hks
        exact earliestBy_min hsel k (List.mem_filter.mpr ⟨hk, by simpa using hks⟩)
      refine ⟨hmem, hpend, hmin, rfl, ?_⟩
      cases hh : handleJob j (setJob db j.id fun r =>
          { r with status := "processing", attempts := r.attempts + 1 }) with
      | ok db2 =>
        have hrun : processNextJob db t = markDone db2 j.id t := by
          simp [processNextJob, claimNextJob, hsel, finishJob, hh]
        have hjobs : db2.background_jobs = db.background_jobs.map (fun r =>
            if r.id = j.id then { r with status := "processing", attempts := r.attempts + 1 } else r) :=
          handleJob_jobs hh
        refine ⟨hrun, ?_⟩
        rw [hrun]
        have hstep : (markDone db2 j.id t).background_jobs =
            db2.background_jobs.map (fun jj => if jj.id = j.id
              then { jj with status := "done", completed_at := some t } else jj) := rfl
        rw [hstep, hjobs, List.map_map]
        refine List.map_congr_left fun r _ => ?_
        by_cases hr : r.id = j.id
        · simp [Function.comp, hr]
        · simp [Function.comp, hr]
      | error msg =>
        have hrun : processNextJob db t = markFailed (setJob db j.id fun r =>
            { r with status := "processing", attempts := r.attempts + 1 }) j.id msg := by
          simp [processNextJob, claimNextJob, hsel, finishJob, hh]
        refine ⟨hrun, ?_⟩
        rw [hrun]
        have hstep : (markFailed (setJob db j.id fun r =>
            { r with status := "processing", attempts := r.attempts + 1 }) j.id msg).background_jobs =
            (db.background_jobs.map (fun r =>
              if r.id = j.id then { r with status := "processing", attempts := r.attempts + 1 } else r)).map
              (fun jj => if jj.id = j.id
                then { jj with status := "failed", last_error := some msg } else jj) := rfl
        rw [hstep, List.map_map]
        refine List.map_congr_left fun r _ => ?_
        by_cases hr : r.id = j.id
        · simp [Function.comp, hr]
        · simp [Function.comp, hr]

/-- C1 witness: with no pending row a processNextJob call changes nothing. -/
theorem processNextJob_spec_witness :
    processNextJob ⟨[], [], [], [],
        [⟨1, "noop", JobPayload.leadRef 5, "done", 1, 10, some 11, none⟩]⟩ 0 =
      ⟨[], [], [], [], [⟨1, "noop", JobPayload.leadRef 5, "done", 1, 10, some 11, none⟩]⟩ :=
  (processNextJob_spec ⟨[], [], [], [],
    [⟨1, "noop", JobPayload.leadRef 5, "done", 1, 10, some 11, none⟩]⟩ 0).1 (by decide)

/-- C10: an ai_enrich job whose lead_id matches no leads row.  The handler
returns without any change, and a processNextJob call that claims such a
pending job therefore marks it done rather than failed. -/
theorem ai_enrich_missing_lead_spec :
    (∀ (db : DB) (lid : Nat), (∀ l ∈ db.leads, l.id ≠ lid) →
      processAIEnrichJob (.leadRef lid) db = .ok db) ∧
    (∀ (db : DB) (t : Nat) (j : JobRow) (db1 : DB) (lid : Nat),
      claimNextJob db = some (j, db1) →
      j.job_type = "ai_enrich" → j.payload = .leadRef lid →
      (∀ l ∈ db.leads, l.id ≠ lid) →
      processNextJob db t = markDone db1 j.id t ∧
      (∀ r ∈ (processNextJob db t).background_jobs, r.id = j.id → r.status = "done")) := by
  have hpart1 : ∀ (db : DB) (lid : Nat), (∀ l ∈ db.leads, l.id ≠ lid) →
      processAIEnrichJob (.leadRef lid) db = .ok db := by
    intro db lid h
    simp [processAIEnrichJob, getLeadId, findLead_eq_none h]
  refine ⟨hpart1, ?_⟩
  intro db t j db1 lid hc hjt hjp hno
  cases hsel : selectPending db.background_jobs with
  | none =>
    rw [claimNextJob, hsel] at hc
    cases hc
  | some j0 =>
    rw [claimNextJob, hsel] at hc
    cases hc
    have hh : handleJob j (setJob db j.id fun r =>
        { r with status := "processing", attempts := r.attempts + 1 }) =
        .ok (setJob db j.id fun r =>
          { r with status := "processing", attempts := r.attempts + 1 }) := by
      have hne : ¬ j.job_type = "import_row" := by
        rw [hjt]
        decide
      have hfirst : (if j.job_type = "ai_enrich"
          then processAIEnrichJob j.payload (setJob db j.id fun r =>
            { r with status := "processing", attempts := r.attempts + 1 })
          else .ok (setJob db j.id fun r =>
            { r with status := "processing", attempts := r.attempts + 1 })) =
          .ok (setJob db j.id fun r =>
            { r with status := "processing", attempts := r.attempts + 1 }) := by
        rw [if_pos hjt, hjp]
        exact hpart1 _ lid hno
      unfold handleJob
      rw [hfirst]
      show (if j.job_type = "import_row"
          then processImportRowJob j.payload (setJob db j.id fun r =>
            { r with status := "processing", attempts := r.attempts + 1 })
          else .ok (setJob db j.id fun r =>
            { r with status := "processing", attempts := r.attempts + 1 })) = _
      rw [if_neg hne]
    have hrun : processNextJob db t = markDone (setJob db j.id fun r =>
        { r with status := "processing", attempts := r.attempts + 1 }) j.id t := by
      simp [processNextJob, claimNextJob, hsel, finishJob, hh]
    refine ⟨hrun, ?_⟩
    rw [hrun]
    intro r hr hrid
    have hr2 : r ∈ ((setJob db j.id fun r =>
        { r with status := "processing", attempts := r.attempts + 1 }).background_jobs.map
        (fun jj => if jj.id = j.id
          then { jj with status := "done", completed_at := some t } else jj)) := hr
    obtain ⟨r0, hr0, hval⟩ := List.mem_map.mp hr2
    by_cases h0 : r0.id = j.id
    · rw [if_pos h0] at hval
      rw [← hval]
    · rw [if_neg h0] at hval
      subst hval
      exact absurd hrid h0

/-- C10 witness: processAIEnrichJob on an empty leads table returns without
any change. -/
theorem ai_enrich_missing_lead_spec_witness :
    processAIEnrichJob (.leadRef 5) ⟨[], [], [], [], []⟩ =
      .ok (⟨[], [], [], [], []⟩ : DB) :=
  ai_enrich_missing_lead_spec.1 ⟨[], [], [], [], []⟩ 5 (by simp)

theorem nodup_concat_of {α : Type} {l : List α} {a : α} (h : l.Nodup) (ha : a ∉ l) :
    (l ++ [a]).Nodup := by
  induction l with
  | nil => simp
  | cons x xs ih =>
    simp only [List.nodup_cons] at h
    simp only [List.mem_cons, not_or] at ha
    simp only [List.cons_append, List.nodup_cons]
    refine ⟨?_, ih h.2 ha.2⟩
    simp only [List.mem_append, List.mem_singleton, not_or]
    exact ⟨h.1, fun hx => ha.1 hx.symm⟩

theorem map_id_of (l : List JobRow) (u : JobRow → JobRow) (h : ∀ r, (u r).id = r.id) :
    (l.map u).map JobRow.id = l.map JobRow.id := by
  rw [List.map_map]
  exact List.map_congr_left fun r _ => h r

theorem mem_id_eq {l : List JobRow} (hnd : (l.map JobRow.id).Nodup) :
    ∀ a ∈ l, ∀ b ∈ l, a.id = b.id → a = b := by
  induction l with
  | nil => intro a ha; cases ha
  | cons x xs ih =>
    simp only [List.map_cons, List.nodup_cons] at hnd
    intro a ha b hb hab
    rcases List.mem_cons.mp ha with rfl | ha2 <;> rcases List.mem_cons.mp hb with h5 | hb2
    · rw [h5]
    · refine absurd ?_ hnd.1
      rw [hab]
      exact List.mem_map_of_mem JobRow.id hb2
    · subst h5
      refine absurd ?_ hnd.1
      rw [← hab]
      exact List.mem_map_of_mem JobRow.id ha2
    · exact ih hnd.2 a ha2 b hb2 hab

theorem claimNextJob_pending {db : DB} {j : JobRow} {db1 : DB}
    (h : claimNextJob db = some (j, db1)) :
    j ∈ db.background_jobs ∧ j.status = "pending" ∧
    db1 = setJob db j.id fun r =>
      { r with status := "processing", attempts := r.attempts + 1 } := by
  cases hsel : selectPending db.background_jobs with
  | none =>
    rw [claimNextJob, hsel] at h
    cases h
  | some j0 =>
    rw [claimNextJob, hsel] at h
    cases h
    have hmemf : j ∈ db.background_jobs.filter (fun k => k.status == "pending") :=
      earliestBy_mem hsel
    refine ⟨(List.mem_filter.mp hmemf).1, ?_, rfl⟩
    have hp := (List.mem_filter.mp hmemf).2
    simpa using hp

theorem step_preserves {s s2 : Sys} (hI : Inv s) (hS : Step s s2) :
    Inv s2 ∧ StepOk s.db.background_jobs s2.db.background_jobs := by
  obtain ⟨hnd, hval, hind, hex, hproc⟩ := hI
  cases hS with
  | enqueue jt p id t hfresh =>
    constructor
    · refine ⟨?_, ?_, hind, ?_, ?_⟩
      · show ((s.db.background_jobs ++ [(⟨id, jt, p, "pending", 0, t, none, none⟩ : JobRow)]).map JobRow.id).Nodup
        rw [List.map_append]
        refine nodup_concat_of hnd ?_
        intro hmem
        obtain ⟨r, hr, hrid⟩ := List.mem_map.mp hmem
        exact hfresh r hr hrid
      · intro jj hjj
        rcases List.mem_append.mp hjj with h1 | h2
        · exact hval jj h1
        · have hjn : jj = ⟨id, jt, p, "pending", 0, t, none, none⟩ := by simpa using h2
          subst hjn
          exact Or.inl rfl
      · intro k hk
        obtain ⟨r, hr, hrid⟩ := hex k hk
        exact ⟨r, List.mem_append_left _ hr, hrid⟩
      · intro k hk r hr hrid
        rcases List.mem_append.mp hr with h1 | h2
        · exact hproc k hk r h1 hrid
        · have hrnew : r = ⟨id, jt, p, "pending", 0, t, none, none⟩ := by simpa using h2
          obtain ⟨r0, hr0, hr0id⟩ := hex k hk
          exfalso
          apply hfresh r0 hr0
          rw [hr0id, ← hrid, hrnew]
    · exact Or.inl ⟨⟨id, jt, p, "pending", 0, t, none, none⟩, rfl, rfl⟩
  | claim j db1 h =>
    obtain ⟨hjm, hjp, hdb1⟩ := claimNextJob_pending h
    subst hdb1
    have hjobs2 : (setJob s.db j.id fun r =>
        { r with status := "processing", attempts := r.attempts + 1 }).background_jobs =
        s.db.background_jobs.map (fun r =>
          if r.id = j.id then { r with status := "processing", attempts := r.attempts + 1 } else r) := rfl
    have hidkeep : ∀ r : JobRow,
        ((fun r => if r.id = j.id
          then { r with status := "processing", attempts := r.attempts + 1 } else r) r).id = r.id := by
      intro r
      by_cases hr : r.id = j.id <;> simp [hr]
    have hjid_not : j.id ∉ s.inflight.map JobRow.id := by
      intro hmem
      obtain ⟨k, hk, hkid⟩ := List.mem_map.mp hmem
      have hjproc : j.status = "processing" := hproc k hk j hjm hkid.symm
      rw [hjp] at hjproc
      exact absurd hjproc (by decide)
    constructor
    · refine ⟨?_, ?_, ?_, ?_, ?_⟩
      · show ((s.db.background_jobs.map _).map JobRow.id).Nodup
        rw [map_id_of _ _ hidkeep]
        exact hnd
      · intro r2 hr2
        obtain ⟨r0, hr0, heq⟩ := List.mem_map.mp hr2
        by_cases h0 : r0.id = j.id
        · rw [if_pos h0] at heq
          rw [← heq]
          exact Or.inr (Or.inl rfl)
        · rw [if_neg h0] at heq
          rw [← heq]
          exact hval r0 hr0
      · show ((j :: s.inflight).map JobRow.id).Nodup
        simp only [List.map_cons, List.nodup_cons]
        exact ⟨hjid_not, hind⟩
      · intro k hk
        rcases List.mem_cons.mp hk with rfl | hk2
        · refine ⟨(fun r => if r.id = k.id
            then { r with status := "processing", attempts := r.attempts + 1 } else r) k,
            List.mem_map_of_mem _ hjm, ?_⟩
          simp
        · obtain ⟨r0, hr0, hr0id⟩ := hex k hk2
          exact ⟨_, List.mem_map_of_mem _ hr0, by rw [hidkeep r0, hr0id]⟩
      · intro k hk r2 hr2 hr2id
        obtain ⟨r0, hr0, heq⟩ := List.mem_map.mp hr2
        by_cases h0 : r0.id = j.id
        · rw [if_pos h0] at heq
          rw [← heq]
        · rw [if_neg h0] at heq
          subst heq
          rcases List.mem_cons.mp hk with rfl | hk2
          · exact absurd hr2id h0
          · exact hproc k hk2 r0 hr0 hr2id
    · refine Or.inr ⟨_, rfl, fun r hr => ⟨hidkeep r, ?_⟩⟩
      by_cases h0 : r.id = j.id
      · have hrj : r = j := mem_id_eq hnd r hr j hjm h0
        subst hrj
        rw [if_pos h0, hjp]
        right
        simp [allowedTransitions]
      · rw [if_neg h0]
        exact Or.inl rfl
  | finish j t hinf =>
    cases hh : handleJob j s.db with
    | ok db2 =>
      have hjobs : db2.background_jobs = s.db.background_jobs := handleJob_jobs hh
      have hstep : (finishJob s.db j t).background_jobs =
          s.db.background_jobs.map (fun jj => if jj.id = j.id
            then { jj with status := "done", completed_at := some t } else jj) := by
        show (match handleJob j s.db with
          | .ok db2 => markDone db2 j.id t
          | .error msg => markFailed s.db j.id msg).background_jobs = _
        rw [hh]
        show db2.background_jobs.map _ = _
        rw [hjobs]
      have hidkeep : ∀ r : JobRow,
          ((fun jj => if jj.id = j.id
            then { jj with status := "done", completed_at := some t } else jj) r).id = r.id := by
        intro r
        by_cases hr : r.id = j.id <;> simp [hr]
      have hindl : s.inflight.Nodup := hind.of_map
      constructor
      · refine ⟨?_, ?_, ?_, ?_, ?_⟩
        · show ((finishJob s.db j t).background_jobs.map JobRow.id).Nodup
          rw [hstep, map_id_of _ _ hidkeep]
          exact hnd
        · intro r2 hr2
          rw [hstep] at hr2
          obtain ⟨r0, hr0, heq⟩ := List.mem_map.mp hr2
          by_cases h0 : r0.id = j.id
          · rw [if_pos h0] at heq
            rw [← heq]
            exact Or.inr (Or.inr (Or.inl rfl))
          · rw [if_neg h0] at heq
            rw [← heq]
            exact hval r0 hr0
        · exact hind.sublist ((s.inflight.erase_sublist j).map JobRow.id)
        · intro k hk
          have hk2 : k ∈ s.inflight := List.mem_of_mem_erase hk
          obtain ⟨r0, hr0, hr0id⟩ := hex k hk2
          rw [hstep]
          exact ⟨_, List.mem_map_of_mem _ hr0, by rw [hidkeep r0, hr0id]⟩
        · intro k hk r2 hr2 hr2id
          have hkj : k ≠ j ∧ k ∈ s.inflight := (hindl.mem_erase_iff).mp hk
          have hkid : k.id ≠ j.id := by
            intro hh2
            exact hkj.1 (mem_id_eq hind k hkj.2 j hinf hh2)
          rw [hstep] at hr2
          obtain ⟨r0, hr0, heq⟩ := List.mem_map.mp hr2
          by_cases h0 : r0.id = j.id
          · exfalso
            rw [if_pos h0] at heq
            have hr0k : r0.id = k.id := by
              rw [← heq] at hr2id
              simpa using hr2id
            apply hkid
            rw [← hr0k]
            exact h0
          · rw [if_neg h0] at heq
            subst heq
            exact hproc k hkj.2 r0 hr0 hr2id
      · refine Or.inr ⟨_, hstep, fun r hr => ⟨hidkeep r, ?_⟩⟩
        by_cases h0 : r.id = j.id
        · have hrproc : r.status = "processing" := hproc j hinf r hr h0
          rw [if_pos h0, hrproc]
          right
          simp [allowedTransitions]
        · rw [if_neg h0]
          exact Or.inl rfl
    | error msg =>
      have hstep : (finishJob s.db j t).background_jobs =
          s.db.background_jobs.map (fun jj => if jj.id = j.id
            then { jj with status := "failed", last_error := some msg } else jj) := by
        show (match handleJob j s.db with
          | .ok db2 => markDone db2 j.id t
          | .error msg => markFailed s.db j.id msg).background_jobs = _
        rw [hh]
        rfl
      have hidkeep : ∀ r : JobRow,
          ((fun jj => if jj.id = j.id
            then { jj with status := "failed", last_error := some msg } else jj) r).id = r.id := by
        intro r
        by_cases hr : r.id = j.id <;> simp [hr]
      have hindl : s.inflight.Nodup := hind.of_map
      constructor
      · refine ⟨?_, ?_, ?_, ?_, ?_⟩
        · show ((finishJob s.db j t).background_jobs.map JobRow.id).Nodup
          rw [hstep, map_id_of _ _ hidkeep]
          exact hnd
        · intro r2 hr2
          rw [hstep] at hr2
          obtain ⟨r0, hr0, heq⟩ := List.mem_map.mp hr2
          by_cases h0 : r0.id = j.id
          · rw [if_pos h0] at heq
            rw [← heq]
            exact Or.inr (Or.inr (Or.inr rfl))
          · rw [if_neg h0] at heq
            rw [← heq]
            exact hval r0 hr0
        · exact hind.sublist ((s.inflight.erase_sublist j).map JobRow.id)
        · intro k hk
          have hk2 : k ∈ s.inflight := List.mem_of_mem_erase hk
          obtain ⟨r0, hr0, hr0id⟩ := hex k hk2
          rw [hstep]
          exact ⟨_, List.mem_map_of_mem _ hr0, by rw [hidkeep r0, hr0id]⟩
        · intro k hk r2 hr2 hr2id
          have hkj : k ≠ j ∧ k ∈ s.inflight := (hindl.mem_erase_iff).mp hk
          have hkid : k.id ≠ j.id := by
            intro hh2
            exact hkj.1 (mem_id_eq hind k hkj.2 j hinf hh2)
          rw [hstep] at hr2
          obtain ⟨r0, hr0, heq⟩ := List.mem_map.mp hr2
          by_cases h0 : r0.id = j.id
          · exfalso
            rw [if_pos h0] at heq
            have hr0k : r0.id = k.id := by
              rw [← heq] at hr2id
              simpa using hr2id
            apply hkid
            rw [← hr0k]
            exact h0
          · rw [if_neg h0] at heq
            subst heq
            exact hproc k hkj.2 r0 hr0 hr2id
      · refine Or.inr ⟨_, hstep, fun r hr => ⟨hidkeep r, ?_⟩⟩
        by_cases h0 : r.id = j.id
        · have hrproc : r.status = "processing" := hproc j hinf r hr h0
          rw [if_pos h0, hrproc]
          right
          simp [allowedTransitions]
        · rw [if_neg h0]
          exact Or.inl rfl

/-- C2: the background job status machine.  enqueueJob only appends a fresh
pending row; a claim only ever selects a pending row; every step of the system
preserves the invariant (ids unique, every status one of pending, processing,
done, failed, claimed snapshots backed by processing rows) and changes
statuses only along pending to processing, processing to done, processing to
failed, so done and failed rows are terminal and a failed job is never
selected or run again. -/
theorem background_jobs_status_machine :
    (∀ (db : DB) (jt : String) (p : JobPayload) (id t : Nat),
      (enqueueJob db jt p id t).background_jobs =
        db.background_jobs ++ [⟨id, jt, p, "pending", 0, t, none, none⟩]) ∧
    (∀ (db : DB) (j : JobRow) (db1 : DB), claimNextJob db = some (j, db1) →
      j ∈ db.background_jobs ∧ j.status = "pending") ∧
    (∀ s s2 : Sys, Inv s → Step s s2 →
      Inv s2 ∧ StepOk s.db.background_jobs s2.db.background_jobs) ∧
    (∀ s0 s : Sys, s0.db.background_jobs = [] → s0.inflight = [] →
      Relation.ReflTransGen Step s0 s → Inv s) := by
  refine ⟨fun db jt p id t => rfl, ?_, fun s s2 hI hS => step_preserves hI hS, ?_⟩
  · intro db j db1 h
    obtain ⟨h1, h2, _⟩ := claimNextJob_pending h
    exact ⟨h1, h2⟩
  · intro s0 s h1 h2 hr
    induction hr with
    | refl =>
      refine ⟨?_, ?_, ?_, ?_, ?_⟩ <;> simp [h1, h2]
    | tail hab hbc ih => exact (step_preserves ih hbc).1

/-- C2 witness: the empty system is reachable from itself and satisfies the
invariant. -/
theorem background_jobs_status_machine_witness :
    Inv ⟨⟨[], [], [], [], []⟩, []⟩ :=
  background_jobs_status_machine.2.2.2 ⟨⟨[], [], [], [], []⟩, []⟩
    ⟨⟨[], [], [], [], []⟩, []⟩ rfl rfl Relation.ReflTransGen.refl

end AltoCRM

namespace ServerA

theorem mem_insertDesc {a l : SLead} {xs : List SLead} :
    a ∈ insertDesc l xs ↔ a = l ∨ a ∈ xs := by
  induction xs with
  | nil => simp [insertDesc]
  | cons x rest ih =>
    simp only [insertDesc]
    by_cases h : l.id ≤ x.id
    · rw [if_pos h]
      simp only [List.mem_cons, ih]
      tauto
    · rw [if_neg h]
      simp only [List.mem_cons]

theorem mem_sortByIdDesc {a : SLead} {xs : List SLead} :
    a ∈ sortByIdDesc xs ↔ a ∈ xs := by
  induction xs with
  | nil => simp [sortByIdDesc]
  | cons x rest ih =>
    simp only [sortByIdDesc, mem_insertDesc, List.mem_cons, ih]

theorem mem_getLeads {m : SLead} {db : SDB} :
    m ∈ getLeads db ↔ m ∈ db.leads ∧ m.deleted = false := by
  simp [getLeads, mem_sortByIdDesc, List.mem_filter]

/-- C7: soft delete and restore.  Deleting a list of ids keeps every row and
every other column, setting only deleted to true, after which GET /api/leads
omits those leads; restoring the same ids sets deleted back to false, so after
delete followed by restore each listed lead is visible in GET /api/leads with
every other column unchanged, and unlisted leads are untouched. -/
theorem soft_delete_restore_spec (db : SDB) (ids : List Nat) (l : SLead)
    (hmem : l ∈ db.leads) (hid : l.id ∈ ids) :
    ({ l with deleted := true } ∈ (deleteLeads db ids).leads) ∧
    (∀ m ∈ getLeads (deleteLeads db ids), m.id ∉ ids) ∧
    ({ l with deleted := false } ∈ (restoreLeads (deleteLeads db ids) ids).leads) ∧
    ({ l with deleted := false } ∈ getLeads (restoreLeads (deleteLeads db ids) ids)) ∧
    (∀ m ∈ db.leads, m.id ∉ ids → m ∈ (restoreLeads (deleteLeads db ids) ids).leads) := by
  refine ⟨?_, ?_, ?_, ?_, ?_⟩
  · refine List.mem_map.mpr ⟨l, hmem, ?_⟩
    rw [if_pos hid]
  · intro m hm hmid
    obtain ⟨hm1, hm2⟩ := mem_getLeads.mp hm
    obtain ⟨m0, hm0, heq⟩ := List.mem_map.mp hm1
    by_cases h0 : m0.id ∈ ids
    · rw [if_pos h0] at heq
      rw [← heq] at hm2
      cases hm2
    · rw [if_neg h0] at heq
      subst heq
      exact h0 hmid
  · refine List.mem_map.mpr ⟨{ l with deleted := true }, ?_, ?_⟩
    · exact List.mem_map.mpr ⟨l, hmem, by rw [if_pos hid]⟩
    · rw [if_pos hid]
  · refine mem_getLeads.mpr ⟨?_, rfl⟩
    refine List.mem_map.mpr ⟨{ l with deleted := true }, ?_, ?_⟩
    · exact List.mem_map.mpr ⟨l, hmem, by rw [if_pos hid]⟩
    · rw [if_pos hid]
  · intro m hm hmid
    refine List.mem_map.mpr ⟨m, List.mem_map.mpr ⟨m, hm, by rw [if_neg hmid]⟩, by rw [if_neg hmid]⟩

/-- C7 witness: one concrete lead deleted and restored is visible again with
its columns intact. -/
theorem soft_delete_restore_spec_witness :
    ({ id := 1, full_name := some "Ann", email := none, company := none,
        deleted := false, created_at := 3 : SLead } ∈
      getLeads (restoreLeads (deleteLeads ⟨[⟨1, some "Ann", none, none, false, 3⟩], []⟩ [1]) [1])) :=
  (soft_delete_restore_spec ⟨[⟨1, some "Ann", none, none, false, 3⟩], []⟩ [1]
    ⟨1, some "Ann", none, none, false, 3⟩ (by decide) (by decide)).2.2.2.1

end ServerA

namespace EAV

/-- C9 counterexample: POST /api/lead-value against an existing unlocked row
(created for instance by the POST /api/leads initialization with locked false)
updates value and source but leaves locked false, contradicting the claim that
after any call the row holds locked true. -/
theorem lead_value_locked_counterexample :
    leadValueUpsert [⟨"l1", "email", some "", "manual", false⟩] "l1" "email"
        (some "x") "manual" =
      [⟨"l1", "email", some "x", "manual", false⟩] ∧
    ¬ (∀ r ∈ leadValueUpsert [⟨"l1", "email", some "", "manual", false⟩] "l1" "email"
        (some "x") "manual", r.locked = true) := by
  constructor
  · decide
  · decide

theorem filter_keyMatch_eq_nil {tbl : List CellRow} {lid f : String}
    (h : (lid, f) ∉ keysOf tbl) : tbl.filter (keyMatch lid f) = [] := by
  induction tbl with
  | nil => rfl
  | cons r rs ih =>
    simp only [keysOf, List.map_cons, List.mem_cons, not_or] at h
    have hr : keyMatch lid f r = false := by
      simp only [keyMatch, decide_eq_false_iff_not]
      rintro ⟨h1, h2⟩
      exact h.1 (by rw [h1, h2])
    simp only [List.filter_cons, hr]
    exact ih (by simpa [keysOf] using h.2)

theorem keysOf_leadValueUpsert_mem {tbl : List CellRow} {lid f : String}
    {v : Option String} {src : String} :
    ∀ k ∈ keysOf (leadValueUpsert tbl lid f v src), k ∈ keysOf tbl ∨ k = (lid, f) := by
  induction tbl with
  | nil =>
    intro k hk
    simp only [leadValueUpsert, keysOf, List.map_cons, List.map_nil, List.mem_singleton] at hk
    exact Or.inr hk
  | cons r rs ih =>
    intro k hk
    by_cases hr : r.lead_id = lid ∧ r.field_key = f
    · simp only [leadValueUpsert, if_pos hr, keysOf, List.map_cons, List.mem_cons] at hk
      rcases hk with hk | hk
      · exact Or.inl (by simp [keysOf, hk])
      · exact Or.inl (by simp [keysOf]; exact Or.inr (by simpa [keysOf] using hk))
    · simp only [leadValueUpsert, if_neg hr, keysOf, List.map_cons, List.mem_cons] at hk
      rcases hk with hk | hk
      · exact Or.inl (by simp [keysOf, hk])
      · rcases ih k (by simpa [keysOf] using hk) with h1 | h1
        · exact Or.inl (by simp [keysOf]; exact Or.inr (by simpa [keysOf] using h1))
        · exact Or.inr h1

theorem keysOf_putCell_mem {tbl : List CellRow} {lid f : String} {v : Option String} :
    ∀ k ∈ keysOf (putCell tbl lid f v), k ∈ keysOf tbl ∨ k = (lid, f) := by
  induction tbl with
  | nil =>
    intro k hk
    simp only [putCell, keysOf, List.map_cons, List.map_nil, List.mem_singleton] at hk
    exact Or.inr hk
  | cons r rs ih =>
    intro k hk
    by_cases hr : r.lead_id = lid ∧ r.field_key = f
    · simp only [putCell, if_pos hr, keysOf, List.map_cons, List.mem_cons] at hk
      rcases hk with hk | hk
      · exact Or.inl (by simp [keysOf, hk])
      · exact Or.inl (by simp [keysOf]; exact Or.inr (by simpa [keysOf] using hk))
    · simp only [putCell, if_neg hr, keysOf, List.map_cons, List.mem_cons] at hk
      rcases hk with hk | hk
      · exact Or.inl (by simp [keysOf, hk])
      · rcases ih k (by simpa [keysOf] using hk) with h1 | h1
        · exact Or.inl (by simp [keysOf]; exact Or.inr (by simpa [keysOf] using h1))
        · exact Or.inr h1

theorem putCell_filter {tbl : List CellRow} {lid f : String} {v : Option String}
    (h : (keysOf tbl).Nodup) :
    (putCell tbl lid f v).filter (keyMatch lid f) = [⟨lid, f, v, "manual", true⟩] := by
  induction tbl with
  | nil => simp [putCell, List.filter_cons, keyMatch]
  | cons r rs ih =>
    simp only [keysOf, List.map_cons, List.nodup_cons] at h
    by_cases hr : r.lead_id = lid ∧ r.field_key = f
    · simp only [putCell, if_pos hr]
      have hk : keyMatch lid f { r with value := v, source := "manual", locked := true } = true := by
        simp [keyMatch, hr.1, hr.2]
      have hnot : (lid, f) ∉ keysOf rs := by
        rw [← hr.1, ← hr.2]
        simpa [keysOf] using h.1
      rw [List.filter_cons, if_pos hk, filter_keyMatch_eq_nil hnot]
      obtain ⟨hr1, hr2⟩ := hr
      rw [← hr1, ← hr2]
    · simp only [putCell, if_neg hr]
      have hk : keyMatch lid f r = false := by
        simpa [keyMatch] using hr
      rw [List.filter_cons, if_neg (by simp [hk]), ih h.2]

theorem putCell_nodup {tbl : List CellRow} {lid f : String} {v : Option String}
    (h : (keysOf tbl).Nodup) : (keysOf (putCell tbl lid f v)).Nodup := by
  induction tbl with
  | nil => simp [putCell, keysOf]
  | cons r rs ih =>
    simp only [keysOf, List.map_cons, List.nodup_cons] at h
    by_cases hr : r.lead_id = lid ∧ r.field_key = f
    · simp only [putCell, if_pos hr, keysOf, List.map_cons, List.nodup_cons]
      exact ⟨by simpa [keysOf] using h.1, by simpa [keysOf] using h.2⟩
    · simp only [putCell, if_neg hr, keysOf, List.map_cons, List.nodup_cons]
      refine ⟨?_, by simpa [keysOf] using ih (by simpa [keysOf] using h.2)⟩
      intro hmem
      rcases keysOf_putCell_mem _ hmem with h1 | h1
      · exact h.1 (by simpa [keysOf] using h1)
      · exact hr ⟨congrArg Prod.fst h1, congrArg Prod.snd h1⟩

theorem putCell_idem (tbl : List CellRow) (lid f : String) (v : Option String) :
    putCell (putCell tbl lid f v) lid f v = putCell tbl lid f v := by
  induction tbl with
  | nil => simp [putCell]
  | cons r rs ih =>
    by_cases hr : r.lead_id = lid ∧ r.field_key = f
    · simp only [putCell, if_pos hr]
    · simp only [putCell, if_neg hr, ih]

theorem leadValueUpsert_filter {tbl : List CellRow} {lid f : String}
    {v : Option String} {src : String} (h : (keysOf tbl).Nodup) :
    (leadValueUpsert tbl lid f v src).filter (keyMatch lid f) =
      [⟨lid, f, v, src, (match findCell tbl lid f with
        | none => true
        | some r => r.locked)⟩] := by
  induction tbl with
  | nil => simp [leadValueUpsert, findCell, List.filter_cons, keyMatch]
  | cons r rs ih =>
    simp only [keysOf, List.map_cons, List.nodup_cons] at h
    by_cases hr : r.lead_id = lid ∧ r.field_key = f
    · simp only [leadValueUpsert, findCell, if_pos hr]
      have hk : keyMatch lid f { r with value := v, source := src } = true := by
        simp [keyMatch, hr.1, hr.2]
      have hnot : (lid, f) ∉ keysOf rs := by
        rw [← hr.1, ← hr.2]
        simpa [keysOf] using h.1
      rw [List.filter_cons, if_pos hk, filter_keyMatch_eq_nil hnot]
      obtain ⟨hr1, hr2⟩ := hr
      rw [← hr1, ← hr2]
    · simp only [leadValueUpsert, findCell, if_neg hr]
      have hk : keyMatch lid f r = false := by
        simpa [keyMatch] using hr
      rw [List.filter_cons, if_neg (by simp [hk]), ih h.2]

theorem leadValueUpsert_nodup {tbl : List CellRow} {lid f : String}
    {v : Option String} {src : String} (h : (keysOf tbl).Nodup) :
    (keysOf (leadValueUpsert tbl lid f v src)).Nodup := by
  induction tbl with
  | nil => simp [leadValueUpsert, keysOf]
  | cons r rs ih =>
    simp only [keysOf, List.map_cons, List.nodup_cons] at h
    by_cases hr : r.lead_id = lid ∧ r.field_key = f
    · simp only [leadValueUpsert, if_pos hr, keysOf, List.map_cons, List.nodup_cons]
      exact ⟨by simpa [keysOf] using h.1, by simpa [keysOf] using h.2⟩
    · simp only [leadValueUpsert, if_neg hr, keysOf, List.map_cons, List.nodup_cons]
      refine ⟨?_, by simpa [keysOf] using ih (by simpa [keysOf] using h.2)⟩
      intro hmem
      rcases keysOf_leadValueUpsert_mem _ hmem with h1 | h1
      · exact h.1 (by simpa [keysOf] using h1)
      · exact hr ⟨congrArg Prod.fst h1, congrArg Prod.snd h1⟩

theorem leadValueUpsert_idem (tbl : List CellRow) (lid f : String)
    (v : Option String) (src : String) :
    leadValueUpsert (leadValueUpsert tbl lid f v src) lid f v src =
      leadValueUpsert tbl lid f v src := by
  induction tbl with
  | nil => simp [leadValueUpsert]
  | cons r rs ih =>
    by_cases hr : r.lead_id = lid ∧ r.field_key = f
    · simp only [leadValueUpsert, if_pos hr]
    · simp only [leadValueUpsert, if_neg hr, ih]

/-- C9 amended: on a value table with unique (lead_id, field_key) keys, the
PUT /api/cell upsert leaves exactly one row at the written key holding the
value with source manual and locked true, keeps keys unique, and is
idempotent; POST /api/lead-value likewise leaves exactly one row holding the
given value and source and is idempotent, but locked is true only when the row
is newly inserted, an existing row keeping its previous locked flag. -/
theorem cell_upsert_amended_spec (tbl : List CellRow) (lid f : String)
    (v : Option String) (src : String) (h : (keysOf tbl).Nodup) :
    (putCell tbl lid f v).filter (keyMatch lid f) = [⟨lid, f, v, "manual", true⟩] ∧
    (keysOf (putCell tbl lid f v)).Nodup ∧
    putCell (putCell tbl lid f v) lid f v = putCell tbl lid f v ∧
    (leadValueUpsert tbl lid f v src).filter (keyMatch lid f) =
      [⟨lid, f, v, src, (match findCell tbl lid f with
        | none => true
        | some r => r.locked)⟩] ∧
    (keysOf (leadValueUpsert tbl lid f v src)).Nodup ∧
    leadValueUpsert (leadValueUpsert tbl lid f v src) lid f v src =
      leadValueUpsert tbl lid f v src :=
  ⟨putCell_filter h, putCell_nodup h, putCell_idem tbl lid f v,
   leadValueUpsert_filter h, leadValueUpsert_nodup h,
   leadValueUpsert_idem tbl lid f v src⟩

/-- C9 witness: a concrete PUT /api/cell call on the empty table leaves one
manual locked row. -/
theorem cell_upsert_amended_spec_witness :
    (putCell [] "l" "email" (some "x")).filter (keyMatch "l" "email") =
      [⟨"l", "email", some "x", "manual", true⟩] :=
  (cell_upsert_amended_spec [] "l" "email" (some "x") "manual" (by decide)).1

end EAV
